import Mathlib

/-!
# Verification of the ck-apstra-tauri conversion core

A shallow embedding, in Lean 4, of the conversion core of the
ck-apstra-tauri repository:

* the merged-cell reconstructor and header/field mapping of
  `src-tauri/src/commands/data_parser.rs`,
* the header matcher, transformation pipeline and field validator of
  `src-tauri/src/services/enhanced_conversion_service.rs`,
* the transformation engine of
  `src-tauri/src/services/transformation_engine.rs`.

Rust `String`s are modelled as Lean `String`s, viewed through their
underlying `List Char`.  The subject data is ASCII spreadsheet content:
accordingly the ASCII fragments of Rust's Unicode case folding,
whitespace classification and byte-length arithmetic are modelled
(`char::to_lowercase` / `to_uppercase` as ASCII case maps,
`str::len` as character count, which agree on ASCII).
Rust `HashMap`s are modelled as association lists; where the code
iterates a `HashMap` (an unspecified order) the embedding fixes the
list order and theorems quantify over all lists, so every iteration
order of the original is covered.
-/

namespace CkApstra

/-! ## Character and string primitives (ASCII models of the Rust ones) -/

/-- ASCII model of Rust `char::is_whitespace` (the White_Space characters
that occur in spreadsheet text: space, tab, LF, VT, FF, CR). -/
def isWS (c : Char) : Bool :=
  c = ' ' || c = '\t' || c = '\n' || c = '\r' || c = '\x0b' || c = '\x0c'

/-- ASCII model of Rust `char::to_lowercase`. -/
def lowerChar (c : Char) : Char :=
  if 'A' ≤ c && c ≤ 'Z' then Char.ofNat (c.toNat + 32) else c

/-- ASCII model of Rust `char::to_uppercase`. -/
def upperChar (c : Char) : Char :=
  if 'a' ≤ c && c ≤ 'z' then Char.ofNat (c.toNat - 32) else c

/-- Rust `str::to_lowercase` (ASCII fragment). -/
def strLower (s : String) : String := ⟨s.data.map lowerChar⟩

/-- Rust `str::to_uppercase` (ASCII fragment). -/
def strUpper (s : String) : String := ⟨s.data.map upperChar⟩

/-- Drop leading and trailing whitespace of a character list. -/
def trimList (l : List Char) : List Char :=
  ((l.dropWhile isWS).reverse.dropWhile isWS).reverse

/-- Rust `str::trim`. -/
def strTrim (s : String) : String := ⟨trimList s.data⟩

/-- Rust `char::is_ascii_digit`. -/
def isDigitC (c : Char) : Bool := '0' ≤ c && c ≤ '9'

/-- Value of a (non-empty) decimal digit list, most significant first. -/
def digitsToNat (l : List Char) : Nat :=
  l.foldl (fun acc c => acc * 10 + (c.toNat - '0'.toNat)) 0

/-- Rust `str::parse::<u32>()`: an optional leading `+`, then one or more
ASCII digits, value at most `u32::MAX`; anything else is `Err`. -/
def parseU32 (s : String) : Option Nat :=
  let l := if s.data.head? = some '+' then s.data.tail else s.data
  if l ≠ [] ∧ l.all isDigitC = true ∧ digitsToNat l < 2 ^ 32 then
    some (digitsToNat l)
  else
    none

/-- `needle.is_prefix_of haystack` on character lists. -/
def isPrefixList : List Char → List Char → Bool
  | [], _ => true
  | _ :: _, [] => false
  | a :: as_, b :: bs => a = b && isPrefixList as_ bs

/-- Rust `str::contains` (substring occurrence) on character lists. -/
def containsList (hay need : List Char) : Bool :=
  match hay with
  | [] => need.isEmpty
  | _ :: t => isPrefixList need hay || containsList t need

/-- Rust `str::contains` on strings. -/
def strContains (hay need : String) : Bool := containsList hay.data need.data

/-- Rust `str::ends_with` on strings. -/
def strEndsWith (s pat : String) : Bool :=
  isPrefixList pat.data.reverse s.data.reverse

/-- Rust `str::replace` on character lists: replace each non-overlapping
occurrence of `pat`, left to right.  Every pattern this code base passes
is non-empty; the empty pattern is mapped to the identity. -/
def replaceList : List Char → List Char → List Char → List Char
  | [], _, _ => []
  | c :: t, [], rep => c :: replaceList t [] rep
  | c :: t, p :: ps, rep =>
    if isPrefixList (p :: ps) (c :: t) then
      rep ++ replaceList (t.drop ps.length) (p :: ps) rep
    else
      c :: replaceList t (p :: ps) rep
termination_by s _ _ => s.length
decreasing_by
  · simp
  · simp only [List.length_cons, List.length_drop]
    omega
  · simp

/-- Rust `str::replace` on strings. -/
def strReplace (s pat rep : String) : String :=
  ⟨replaceList s.data pat.data rep.data⟩

/-- Rust `str::split_whitespace`: maximal runs of non-whitespace. -/
def splitWSAux : List Char → List Char → List (List Char)
  | [], acc => if acc.isEmpty then [] else [acc.reverse]
  | c :: t, acc =>
    if isWS c then
      if acc.isEmpty then splitWSAux t [] else acc.reverse :: splitWSAux t []
    else
      splitWSAux t (c :: acc)

/-- Rust `str::split_whitespace` on a character list. -/
def splitWS (l : List Char) : List (List Char) := splitWSAux l []

/-- `Vec::join(" ")`. -/
def joinSpaces : List (List Char) → List Char
  | [] => []
  | [w] => w
  | w :: ws => w ++ ' ' :: joinSpaces ws

/-! ## `transformation_engine.rs`: built-in transformation functions -/

/-- `TransformationEngine::is_numeric_port`: the input, trimmed, parses as
a `u32`. -/
def isNumericPort (input : String) : Bool := (parseU32 (strTrim input)).isSome

/-- Model of Rust `"…".parse::<f32>()` followed by `as u32`, as applied by
`normalize_speed_value` to the digit-and-dot prefix of a speed token.
On a non-empty all-digit string below `2^24` the `f32` round trip is exact
and this returns that value.  Dotted or larger prefixes, where `f32`
rounding and saturation set in, are outside the modelled domain and give
`none` (no claim exercises them). -/
def parseFloatU32 (l : List Char) : Option Nat :=
  if l ≠ [] ∧ l.all isDigitC = true ∧ digitsToNat l < 2 ^ 24 then
    some (digitsToNat l)
  else
    none

/-- `TransformationEngine::normalize_speed_value`. -/
def normalize_speed_value (speed : String) : String :=
  if speed = "" then speed
  else
    let speed_clean := strUpper (strTrim speed)
    let gbRes :=
      if strEndsWith speed_clean "GBPS" || strEndsWith speed_clean "GB" then
        parseFloatU32 (speed_clean.data.takeWhile fun c => isDigitC c || c = '.')
      else none
    match gbRes with
    | some n => toString n ++ "G"
    | none =>
      let mbRes :=
        if strEndsWith speed_clean "MBPS" || strEndsWith speed_clean "MB" then
          parseFloatU32 (speed_clean.data.takeWhile fun c => isDigitC c || c = '.')
        else none
      match mbRes with
      | some n => toString n ++ "M"
      | none =>
        match parseU32 speed_clean with
        | some n => toString n ++ "G"
        | none =>
          if speed_clean = "1000" then "1G"
          else if speed_clean = "10000" then "10G"
          else if speed_clean = "25000" then "25G"
          else if speed_clean = "40000" then "40G"
          else if speed_clean = "100000" then "100G"
          else if strEndsWith speed_clean "G" || strEndsWith speed_clean "M" then
            speed_clean
          else speed

/-- `TransformationEngine::determine_interface_prefix`. -/
def determineInterfacePrefix (speed : String) : String :=
  let normalized_speed := normalize_speed_value speed
  if normalized_speed = "1G" || normalized_speed = "1000M" then "ge"
  else if normalized_speed = "10G" || normalized_speed = "10000M" then "xe"
  else if normalized_speed = "25G" || normalized_speed = "25000M" ||
          normalized_speed = "40G" || normalized_speed = "40000M" ||
          normalized_speed = "100G" || normalized_speed = "100000M" then "et"
  else
    match parseU32 ⟨normalized_speed.data.takeWhile isDigitC⟩ with
    | some numeric_part =>
      if strEndsWith normalized_speed "G" then
        if numeric_part = 1 then "ge"
        else if numeric_part = 10 then "xe"
        else if numeric_part = 25 || numeric_part = 40 || numeric_part = 100 then "et"
        else if numeric_part > 10 then "et"
        else "ge"
      else "ge"
    | none => "ge"

/-- Association-list lookup, the model of `HashMap::get`. -/
def lookupL {α : Type} (l : List (String × α)) (k : String) : Option α :=
  match l with
  | [] => none
  | (k', v) :: t => if k' = k then some v else lookupL t k

/-- `HashMap::insert`: replace the binding if the key is present,
otherwise add it. -/
def upsertL {α : Type} (l : List (String × α)) (k : String) (v : α) :
    List (String × α) :=
  if (lookupL l k).isSome then
    l.map fun p => if p.1 = k then (k, v) else p
  else
    l ++ [(k, v)]


/-- `TransformationEngine::generate_interface_name`.  The context is the
field-value map (`Option` mirrors the Rust `Option<&HashMap<_, _>>`). -/
def generate_interface_name (input : String)
    (context : Option (List (String × String))) : Except String String :=
  if !isNumericPort input then .ok input
  else
    match parseU32 (strTrim input) with
    | none => .error "Invalid port number"
    | some port_num =>
      let speed := ((context.bind fun ctx => lookupL ctx "link_speed").getD "")
      let pfx := determineInterfacePrefix speed
      .ok (pfx ++ "-0/0/" ++ toString port_num)

/-- `TransformationEngine::convert_lag_mode_value`. -/
def convert_lag_mode_value (input : String) : String :=
  if input = "" then input
  else
    let input_clean := strLower (strTrim input)
    if input_clean = "yes" || input_clean = "y" || input_clean = "true" ||
       input_clean = "1" then "lacp_active"
    else if input_clean = "no" || input_clean = "n" || input_clean = "false" ||
            input_clean = "0" then "none"
    else if input_clean = "lacp_active" || input_clean = "static" ||
            input_clean = "none" then input_clean
    else if input_clean = "lacp" then "lacp_active"
    else input

/-! ## `commands/data_parser.rs`: merged-cell reconstruction -/

/-- A spreadsheet cell (`calamine::DataType`): `none` is `DataType::Empty`,
`some s` a populated cell rendered as the string `s`
(`DataType::is_empty` / `Display`). -/
abbrev Cell : Type := Option String

def cellIsEmpty (c : Cell) : Bool := c.isNone

/-- `cell.to_string().trim().to_string()`. -/
def cellToString (c : Cell) : String := strTrim (c.getD "")

/-- The scan loop of `propagate_merged_cells_in_row`: walk the row left to
right carrying the last non-empty value and the column where it was set;
fill an empty cell while the distance from that column is at most 3,
clear the carry beyond that distance. -/
def propagateLoop : List Cell → Option (String × Nat) → Nat → List Cell
  | [], _, _ => []
  | c :: rest, carry, i =>
    match (c : Option String) with
    | some v => (some v : Cell) :: propagateLoop rest (some (v, i)) (i + 1)
    | none =>
      match carry with
      | some (v, start_idx) =>
        if i - start_idx ≤ 3 then
          (some v : Cell) :: propagateLoop rest (some (v, start_idx)) (i + 1)
        else
          (none : Cell) :: propagateLoop rest none (i + 1)
      | none => (none : Cell) :: propagateLoop rest none (i + 1)

/-- `propagate_merged_cells_in_row`.  The category-row guard
`(non_empty as f32 / total as f32) < 0.3` is modelled by the exact
rational comparison `10 * non_empty < 3 * total`, which agrees with the
`f32` comparison for every row of fewer than a million cells. -/
def propagate_merged_cells_in_row (row : List Cell) : List Cell :=
  let non_empty_count := (row.filter fun c => !cellIsEmpty c).length
  let total_cells := row.length
  if total_cells > 5 && 10 * non_empty_count < 3 * total_cells then
    row
  else
    propagateLoop row none 0

/-- One data row of `apply_intelligent_merged_cell_detection`: walk the
stringified row together with the per-column carry vector; a non-empty
cell updates the column's carry, an empty cell receives the carry when
one exists.  (If a row is longer than the header list the Rust code
indexes `column_carry_values` out of bounds and panics; the model keeps
such excess cells unchanged, and every theorem stays inside the
panic-free domain.) -/
def updateRow : List String → List (Option String) →
    List String × List (Option String)
  | [], carry => ([], carry)
  | v :: vs, [] => (v :: vs, [])
  | v :: vs, c :: cs =>
    let vc : String × Option String :=
      if v ≠ "" then (v, some v)
      else
        match c with
        | some w => (w, some w)
        | none => ("", none)
    let rest := updateRow vs cs
    (vc.1 :: rest.1, vc.2 :: rest.2)

/-- The row loop of `apply_intelligent_merged_cell_detection`: thread the
per-column carry through successive rows. -/
def vfLoop : List (List String) → List (Option String) → List (List String)
  | [], _ => []
  | r :: rs, carry =>
    let rc := updateRow r carry
    rc.1 :: vfLoop rs rc.2

/-- One row's effect on the column-`j` carry value (the explicit form of
the per-column update inside `apply_intelligent_merged_cell_detection`,
used to state its characterization). -/
def colCarryStep (acc : Option String) (r : List String) (j : Nat) :
    Option String :=
  match r.get? j with
  | some v => if v ≠ "" then some v else acc
  | none => acc

/-- The column-`j` carry after a sequence of rows, starting from `init`:
the most recent non-empty value in column `j`. -/
def colCarryFrom (init : Option String) (rows : List (List String))
    (j : Nat) : Option String :=
  rows.foldl (fun acc r => colCarryStep acc r j) init

/-- `headers.get(col_idx).cloned().unwrap_or(format!("col_{}", col_idx))`. -/
def colHeader (headers : List String) (k : Nat) : String :=
  (headers.get? k).getD ("col_" ++ toString k)

/-- Build the per-row `HashMap<String, String>` keyed by header. -/
def rowToAssoc (headers : List String) (vals : List String) :
    List (String × String) :=
  vals.enum.foldl (fun acc iv => upsertL acc (colHeader headers iv.1) iv.2) []

/-- `apply_intelligent_merged_cell_detection`. -/
def apply_intelligent_merged_cell_detection (data_rows : List (List Cell))
    (headers : List String) : List (List (String × String)) :=
  (vfLoop (data_rows.map fun row => row.map cellToString)
      (headers.map fun _ => none)).map (rowToAssoc headers)

/-! ## `commands/data_parser.rs`: header → field mapping -/

/-- The `normalize_header` helper of `create_conversion_field_mapping`:
lower-case, replace CR and LF by spaces, collapse whitespace runs to a
single space, trim the ends. -/
def normalize_header (header : String) : String :=
  ⟨joinSpaces (splitWS (((strLower header).data.map
      fun c => if c = '\r' then ' ' else c).map
      fun c => if c = '\n' then ' ' else c))⟩

/-- Stable insertion of one mapping into a list sorted by key byte length,
longest first (`sort_by_key(Reverse(len))`). -/
def insertLenDesc (x : String × String) :
    List (String × String) → List (String × String)
  | [] => [x]
  | y :: ys =>
    if x.1.data.length > y.1.data.length then x :: y :: ys
    else y :: insertLenDesc x ys

/-- `sorted_mappings`: the conversion mappings sorted by key byte length,
longest first, stably. -/
def sortMappingsDesc : List (String × String) → List (String × String)
  | [] => []
  | x :: xs => insertLenDesc x (sortMappingsDesc xs)

/-- Phase 1 of `create_conversion_field_mapping` for one header: take the
first mapping whose key has the same normalization and claim its field
unless the field is already claimed. -/
def phase1Step (sorted : List (String × String))
    (map : List (String × String)) (h : String) : List (String × String) :=
  match sorted.find? fun em => normalize_header em.1 == normalize_header h with
  | some ef => if lookupL map ef.2 = none then map ++ [(ef.2, h)] else map
  | none => map

def phase1 (headers : List String) (sorted : List (String × String)) :
    List (String × String) :=
  headers.foldl (phase1Step sorted) []

/-- `field_map.values().any(|mapped_header| mapped_header == header)`. -/
def hdrMapped (map : List (String × String)) (h : String) : Bool :=
  map.any fun p => p.2 == h

/-- Phase 2 of `create_conversion_field_mapping` for one header: skip
headers mapped in phase 1; otherwise take the first mapping related by
substring containment of normalizations and claim its field unless the
field is already claimed. -/
def phase2Step (sorted : List (String × String))
    (map : List (String × String)) (h : String) : List (String × String) :=
  if hdrMapped map h then map
  else
    match sorted.find? fun em =>
        strContains (normalize_header h) (normalize_header em.1) ||
        strContains (normalize_header em.1) (normalize_header h) with
    | some ef => if lookupL map ef.2 = none then map ++ [(ef.2, h)] else map
    | none => map

def phase2 (headers : List String) (sorted : List (String × String))
    (map : List (String × String)) : List (String × String) :=
  headers.foldl (phase2Step sorted) map

/-- Stable descending sort of variation strings by byte length. -/
def insertStrLenDesc (x : String) : List String → List String
  | [] => [x]
  | y :: ys =>
    if x.data.length > y.data.length then x :: y :: ys
    else y :: insertStrLenDesc x ys

def sortStrsDesc : List String → List String
  | [] => []
  | x :: xs => insertStrLenDesc x (sortStrsDesc xs)

/-- The variation scan of the fallback branch, matching one header against
one field's variation list.  An exact normalized match claims the field
unconditionally and stops; a partial match claims the field only if
unclaimed and keeps scanning.  Returns the updated map and whether an
exact match was found (`field_matched`). -/
def varScanVariations (fname h : String) :
    List String → List (String × String) → List (String × String) × Bool
  | [], map => (map, false)
  | v :: vs, map =>
    if normalize_header h = strLower v then (upsertL map fname h, true)
    else
      let map' :=
        if lookupL map fname = none &&
           (strContains (normalize_header h) (strLower v) ||
            strContains (strLower v) (normalize_header h)) then
          map ++ [(fname, h)]
        else map
      varScanVariations fname h vs map'

/-- The header scan of the fallback branch for one field: stop at the
first header with an exact variation match. -/
def varScanHeaders (fname : String) (vs : List String) :
    List String → List (String × String) → List (String × String)
  | [], map => map
  | h :: hs, map =>
    let mr := varScanVariations fname h vs map
    if mr.2 then mr.1 else varScanHeaders fname vs hs mr.1

/-- The fallback loop over the default field-variation table.  (In Rust
the table is a `HashMap` iterated in unspecified order; the embedding
fixes the textual order of `get_default_field_variations`.) -/
def runFallback (table : List (String × List String))
    (headers : List String) (map : List (String × String)) :
    List (String × String) :=
  table.foldl
    (fun m ft => varScanHeaders ft.1 (sortStrsDesc ft.2)
      (sortStrsDesc headers) m) map

/-- `ConversionMap::get_default_field_variations`. -/
def default_field_variations : List (String × List String) :=
  [("server_label", ["server_label", "server", "server_name", "hostname",
      "host name", "host_name"]),
   ("switch_label", ["switch_label", "switch", "switch_name", "switch name",
      "device"]),
   ("switch_ifname", ["switch_ifname", "switch_interface", "switch_port",
      "switch port", "port", "interface"]),
   ("server_ifname", ["server_ifname", "server_interface", "server_port",
      "server port", "nic", "slot", "slot/port", "slot port"]),
   ("is_external", ["is_external", "external", "ext"]),
   ("link_speed", ["link_speed", "speed", "bandwidth", "speed (gb)",
      "speed(gb)"]),
   ("link_group_lag_mode", ["link_group_lag_mode", "lag_mode", "bond_mode",
      "mode", "lacpneeded", "lacp needed"]),
   ("link_group_ct_names", ["link_group_ct_names", "ct", "cts",
      "connectivity_template"]),
   ("server_tags", ["server_tags", "tags"]),
   ("link_tags", ["link_tags", "tags"]),
   ("comment", ["comment", "comments", "description", "notes"])]

/-- `create_conversion_field_mapping`: phase 1 (exact normalized matches,
each field locked on first claim), phase 2 (substring matches for headers
and fields not yet claimed), then the field-variation fallback when no
mapping at all was produced. -/
def create_conversion_field_mapping (headers : List String)
    (conversion_mappings : List (String × String)) : List (String × String) :=
  let sorted := sortMappingsDesc conversion_mappings
  let m1 := phase1 headers sorted
  let m2 := phase2 headers sorted m1
  if m2 = [] then runFallback default_field_variations headers m2 else m2

/-! Spec-side mirror of `create_conversion_field_mapping` on a
single-header list, computing only the assigned canonical fields as a
function of the header's normalization.  Used to state and prove that
resolution depends on a header only through `normalize_header`. -/

def upsertFields (fs : List String) (f : String) : List String :=
  if f ∈ fs then fs else fs ++ [f]

/-- Field-level mirror of `varScanVariations` for one header with
normalization `nh`. -/
def varScanFieldsSingle (fname nh : String) :
    List String → List String → List String × Bool
  | [], fs => (fs, false)
  | v :: vs, fs =>
    if nh = strLower v then (upsertFields fs fname, true)
    else
      let fs' :=
        if fname ∉ fs ∧ (strContains nh (strLower v) = true ∨
            strContains (strLower v) nh = true) then
          fs ++ [fname]
        else fs
      varScanFieldsSingle fname nh vs fs'

/-- Field-level mirror of the fallback loop for a single header. -/
def fallbackFieldsSingle (table : List (String × List String)) (nh : String)
    (fs : List String) : List String :=
  table.foldl
    (fun fs ft => (varScanFieldsSingle ft.1 nh (sortStrsDesc ft.2) fs).1) fs

/-- The canonical fields `create_conversion_field_mapping` assigns to a
single header, as a function of the header's normalization alone. -/
def ccfmFieldsSingle (mappings : List (String × String)) (nh : String) :
    List String :=
  let sorted := sortMappingsDesc mappings
  let fs1 : List String :=
    match sorted.find? fun em => normalize_header em.1 == nh with
    | some ef => [ef.2]
    | none => []
  let fs2 : List String :=
    if fs1.isEmpty then
      match sorted.find? fun em =>
          strContains nh (normalize_header em.1) ||
          strContains (normalize_header em.1) nh with
      | some ef => [ef.2]
      | none => []
    else fs1
  if fs2 = [] then fallbackFieldsSingle default_field_variations nh [] else fs2

/-! ## `commands/data_parser.rs`: speed normalization and row assembly -/

/-- `normalize_link_speed` (the data-parser variant applied to the
`link_speed` column of an accepted row). -/
def normalize_link_speed (speed : String) : String :=
  let sp := strLower (strTrim speed)
  let is_mbps := strContains sp "mbps" || strContains sp "mb"
  let is_gbps := strContains sp "gbps" || strContains sp "gb"
  let sp2 := strReplace (strReplace (strReplace (strReplace sp
      "gbps" "") "mbps" "") "gb" "") "mb" ""
  let numeric_part : String := ⟨sp2.data.filter fun c => !isWS c⟩
  if is_mbps then numeric_part ++ "M"
  else if is_gbps then numeric_part ++ "G"
  else if numeric_part.data.all isDigitC && numeric_part ≠ "" then
    numeric_part ++ "G"
  else
    ⟨(match numeric_part.data.reverse with
      | [] => []
      | c :: rest =>
        (if c = 'g' || c = 'm' then upperChar c else c) :: rest).reverse⟩

/-- The canonical output row (`models/network_config.rs`,
`NetworkConfigRow`). -/
structure NetworkConfigRow where
  blueprint : Option String
  server_label : Option String
  is_external : Option Bool
  server_tags : Option String
  link_group_ifname : Option String
  link_group_lag_mode : Option String
  link_group_ct_names : Option String
  link_group_tags : Option String
  link_speed : Option String
  server_ifname : Option String
  switch_label : Option String
  switch_ifname : Option String
  link_tags : Option String
  comment : Option String
  deriving DecidableEq

/-- The `get_field` closure of `convert_to_network_config_row`: map the
canonical field name to its raw header, fetch the row value under that
header, and drop values that are empty after trimming. -/
def get_field (row_data field_map : List (String × String))
    (field_name : String) : Option String :=
  match (lookupL field_map field_name).bind (lookupL row_data) with
  | some v => if strTrim v ≠ "" then some v else none
  | none => none

/-- The boolean parse applied to the `is_external` field. -/
def parse_is_external (s : String) : Option Bool :=
  let ls := strLower s
  if ls = "true" || ls = "yes" || ls = "1" || ls = "y" then some true
  else if ls = "false" || ls = "no" || ls = "0" || ls = "n" then some false
  else none

/-- `convert_to_network_config_row`. -/
def convert_to_network_config_row (row_data field_map : List (String × String)) :
    Option NetworkConfigRow :=
  let switch_label := get_field row_data field_map "switch_label"
  let switch_ifname := get_field row_data field_map "switch_ifname"
  if switch_label = none ∧ switch_ifname = none then none
  else
    some
      { blueprint := none
        server_label := get_field row_data field_map "server_label"
        is_external :=
          (get_field row_data field_map "is_external").bind parse_is_external
        server_tags := get_field row_data field_map "server_tags"
        link_group_ifname := get_field row_data field_map "link_group_ifname"
        link_group_lag_mode :=
          get_field row_data field_map "link_group_lag_mode"
        link_group_ct_names :=
          get_field row_data field_map "link_group_ct_names"
        link_group_tags := get_field row_data field_map "link_group_tags"
        link_speed :=
          (get_field row_data field_map "link_speed").map normalize_link_speed
        server_ifname := get_field row_data field_map "server_ifname"
        switch_label := switch_label
        switch_ifname := switch_ifname
        link_tags := get_field row_data field_map "link_tags"
        comment := get_field row_data field_map "comment" }

/-! ## `models/enhanced_conversion_map.rs`

The data model of the enhanced conversion map, restricted to the fields
the conversion core reads.  Presentational metadata that no embedded
function ever inspects (`display_name` is kept, `description`,
`data_type`, `api_mappings`, `ui_config`, `numeric_range`,
`custom_validators`, rule `name`/`description`/`rule_type`/`priority`,
map `version`/`header_row`/timestamps are omitted). -/

inductive MappingType where
  | Exact
  | Partial
  | Regex
  | Fuzzy
  deriving DecidableEq

structure XlsxMapping where
  pattern : String
  mapping_type : MappingType
  priority : Nat
  case_sensitive : Bool
  deriving DecidableEq

structure ValidationRules where
  min_length : Option Nat
  max_length : Option Nat
  pattern : Option String
  allowed_values : Option (List String)
  deriving DecidableEq

/-- A `serde_json::Value` as the condition and step parameters use it
(numbers restricted to the `u64` accessor the code calls). -/
inductive JValue where
  | jnull
  | jbool (b : Bool)
  | jnum (n : Nat)
  | jstr (s : String)
  | jobj (fields : List (String × JValue))

def JValue.asStr : JValue → Option String
  | .jstr s => some s
  | _ => none

def JValue.asBool : JValue → Option Bool
  | .jbool b => some b
  | _ => none

def JValue.asU64 : JValue → Option Nat
  | .jnum n => some n
  | _ => none

def JValue.asObject : JValue → Option (List (String × JValue))
  | .jobj f => some f
  | _ => none

structure TransformationStep where
  step_type : String
  parameters : List (String × JValue)

inductive TransformationLogic where
  | ValueMap (mappings : List (String × String))
  | Template (template : String)
  | Function (name : String)
  | Pipeline (steps : List TransformationStep)

structure TransformationRule where
  conditions : Option (List (String × JValue))
  logic : TransformationLogic

structure FieldDefinition where
  display_name : String
  is_required : Bool
  is_key_field : Bool
  xlsx_mappings : List XlsxMapping
  validation_rules : ValidationRules
  transformations : Option (List String)

structure EnhancedConversionMap where
  field_definitions : List (String × FieldDefinition)
  transformation_rules : List (String × TransformationRule)

/-! ## `services/enhanced_conversion_service.rs`: header matching

Regular-expression compilation and matching (the `Regex` mapping type and
the validator's `pattern` rule) are modelled by an explicit matcher
parameter: `re pat s` tells whether `pat` compiles and matches `s`
(`Bool` where compile failure and no-match coincide in the code), or
`Option Bool` where the code distinguishes them.  Theorems quantify over
the matcher. -/

/-- The Levenshtein edit distance, as computed by the dynamic-programming
matrix of `EnhancedConversionService::levenshtein_distance` (on ASCII
strings, where the byte indices of the Rust loop coincide with character
indices). -/
def levenshtein : List Char → List Char → Nat
  | [], ys => ys.length
  | x :: xs, [] => (x :: xs).length
  | x :: xs, y :: ys =>
    min (levenshtein xs (y :: ys) + 1)
      (min (levenshtein (x :: xs) ys + 1)
        (levenshtein xs ys + if x = y then 0 else 1))
termination_by a b => a.length + b.length
decreasing_by all_goals simp_arith

/-- `calculate_fuzzy_confidence`:
`1 - distance / max(pattern.len(), text.len())` as an exact rational. -/
def calculate_fuzzy_confidence (pattern text : String) : ℚ :=
  let max_len := max pattern.data.length text.data.length
  if max_len = 0 then 1
  else 1 - (levenshtein pattern.data text.data : ℚ) / (max_len : ℚ)

/-- The confidence one `xlsx_mapping` assigns to a header in
`find_best_field_match` (0 when it does not match). -/
def mappingConfidence (re : String → String → Bool) (excel_header : String)
    (xm : XlsxMapping) : ℚ :=
  match xm.mapping_type with
  | .Exact =>
    let p := if xm.case_sensitive then xm.pattern else strLower xm.pattern
    let h := if xm.case_sensitive then excel_header else strLower excel_header
    if p = h then 1 else 0
  | .Partial =>
    let p := if xm.case_sensitive then xm.pattern else strLower xm.pattern
    let h := if xm.case_sensitive then excel_header else strLower excel_header
    if strContains h p then 8 / 10 else 0
  | .Regex => if re xm.pattern excel_header then 9 / 10 else 0
  | .Fuzzy => calculate_fuzzy_confidence xm.pattern excel_header

/-- The accumulator loop of `find_best_field_match` over all mappings of
all fields: keep the first strictly-better confidence. -/
def fbfmFold (re : String → String → Bool) (excel_header : String)
    (fields : List (String × FieldDefinition)) (best : Option String × ℚ) :
    Option String × ℚ :=
  fields.foldl
    (fun b fd =>
      fd.2.xlsx_mappings.foldl
        (fun b xm =>
          let confidence := mappingConfidence re excel_header xm
          if b.2 < confidence then (some fd.1, confidence) else b)
        b)
    best

/-- `find_best_field_match`. -/
def find_best_field_match (re : String → String → Bool)
    (excel_header : String) (enhanced_map : EnhancedConversionMap) :
    Option (String × ℚ) :=
  let b := fbfmFold re excel_header enhanced_map.field_definitions (none, 0)
  b.1.map fun f => (f, b.2)

/-! ## `services/transformation_engine.rs`: rule interpreter -/

/-- The built-in function registry of `TransformationEngine::new`. -/
def engineFunctions (name : String) :
    Option (String → Option (List (String × String)) → Except String String) :=
  if name = "generate_interface_name" then some generate_interface_name
  else if name = "normalize_speed" then
    some fun input _ => .ok (normalize_speed_value input)
  else if name = "lag_mode_conversion" then
    some fun input _ => .ok (convert_lag_mode_value input)
  else if name = "trim_whitespace" then some fun input _ => .ok (strTrim input)
  else if name = "to_uppercase" then some fun input _ => .ok (strUpper input)
  else if name = "to_lowercase" then some fun input _ => .ok (strLower input)
  else none

/-- `TransformationEngine::evaluate_conditions`.  The Rust `str::len`
conditions are character counts on the ASCII data in scope. -/
def evaluate_conditions (conditions : List (String × JValue)) (input : String)
    (context : Option (List (String × String))) : Bool :=
  conditions.all fun kv =>
    if kv.1 = "input_type" then
      if (kv.2.asStr.getD "") = "numeric_port" then isNumericPort input
      else false
    else if kv.1 = "has_speed_data" then
      if kv.2.asBool.getD false then
        match context with
        | some ctx => ((lookupL ctx "link_speed").getD "") ≠ ""
        | none => false
      else true
    else if kv.1 = "min_length" then
      (kv.2.asU64.getD 0) ≤ input.data.length
    else if kv.1 = "max_length" then
      input.data.length ≤ (kv.2.asU64.getD 0)
    else true

/-- `TransformationEngine::apply_template_transformation`: substitute
`\x7binput\x7d`, then each context field's `\x7bkey\x7d` placeholder. -/
def apply_template_transformation (template input : String)
    (context : Option (List (String × String))) : String :=
  let r := strReplace template "\x7binput\x7d" input
  match context with
  | some ctx =>
    ctx.foldl (fun r kv => strReplace r ("\x7b" ++ kv.1 ++ "\x7d") kv.2) r
  | none => r

/-- `TransformationEngine::apply_transformation_step`. -/
def apply_transformation_step (step_type input : String)
    (parameters : List (String × JValue))
    (context : Option (List (String × String))) : Except String String :=
  if step_type = "function" then
    match (lookupL parameters "name").bind JValue.asStr with
    | some func_name =>
      match engineFunctions func_name with
      | some f => f input context
      | none => .error ("Unknown function in pipeline: " ++ func_name)
    | none => .error "Function step missing 'name' parameter"
  else if step_type = "template" then
    match (lookupL parameters "template").bind JValue.asStr with
    | some template => .ok (apply_template_transformation template input context)
    | none => .error "Template step missing 'template' parameter"
  else if step_type = "value_map" then
    match (lookupL parameters "mappings").bind JValue.asObject with
    | some mappings_obj =>
      match (lookupL mappings_obj input).bind JValue.asStr with
      | some mapped => .ok mapped
      | none => .ok input
    | none => .error "Value map step missing 'mappings' parameter"
  else .error ("Unknown transformation step type: " ++ step_type)

/-- `TransformationEngine::apply_transformation`. -/
def apply_transformation (rule : TransformationRule) (input : String)
    (context : Option (List (String × String))) : Except String String :=
  let gate :=
    match rule.conditions with
    | some conditions => evaluate_conditions conditions input context
    | none => true
  if !gate then .ok input
  else
    match rule.logic with
    | .ValueMap value_map =>
      match lookupL value_map input with
      | some mapped_value => .ok mapped_value
      | none =>
        match value_map.find? fun kv => strLower kv.1 == strLower input with
        | some kv => .ok kv.2
        | none => .ok input
    | .Template template =>
      .ok (apply_template_transformation template input context)
    | .Function function_name =>
      match engineFunctions function_name with
      | some f => f input context
      | none => .error ("Unknown transformation function: " ++ function_name)
    | .Pipeline steps =>
      steps.foldlM
        (fun current_value step =>
          apply_transformation_step step.step_type current_value
            step.parameters context)
        input

/-! ## `services/enhanced_conversion_service.rs`: field transformations -/

/-- One step of the per-field rule loop of `apply_field_transformations`:
a rule name absent from `transformation_rules`, or a rule that fails,
leaves the value as it was before that rule (the failure is logged). -/
def applyOneRule (enhanced_map : EnhancedConversionMap)
    (field_data : List (String × String))
    (transformed_value transformation_name : String) : String :=
  match lookupL enhanced_map.transformation_rules transformation_name with
  | none => transformed_value
  | some rule =>
    match apply_transformation rule transformed_value (some field_data) with
    | .ok new_value => new_value
    | .error _ => transformed_value

/-- The per-field loop body of `apply_field_transformations`: thread the
field's value through each named rule. -/
def applyRulesForField (enhanced_map : EnhancedConversionMap)
    (field_data : List (String × String)) (field_name value : String) : String :=
  match lookupL enhanced_map.field_definitions field_name with
  | none => value
  | some field_def =>
    match field_def.transformations with
    | none => value
    | some ts => ts.foldl (applyOneRule enhanced_map field_data) value

/-- `apply_field_transformations` (the full field-value map serves as
context for every field). -/
def apply_field_transformations (field_data : List (String × String))
    (enhanced_map : EnhancedConversionMap) :
    Except String (List (String × String)) :=
  .ok (field_data.map fun fv =>
    (fv.1, applyRulesForField enhanced_map field_data fv.1 fv.2))

/-! ## `services/enhanced_conversion_service.rs`: field validation -/

inductive ErrorSeverity where
  | Error
  | Warning
  deriving DecidableEq

structure ValidationError where
  field : String
  message : String
  severity : ErrorSeverity
  deriving DecidableEq

structure FieldValidationSummary where
  is_valid : Bool
  error_count : Nat
  warning_count : Nat
  deriving DecidableEq

structure ValidationResult where
  is_valid : Bool
  errors : List ValidationError
  warnings : List ValidationError
  field_summary : List (String × FieldValidationSummary)
  deriving DecidableEq

/-- Rust `{:?}` rendering of a `Vec<String>`, as interpolated into the
allowed-values warning message. -/
def debugListStr (l : List String) : String :=
  "[" ++ String.intercalate ", " (l.map fun s => "\"" ++ s ++ "\"") ++ "]"

/-- The error checks of `validate_field_values` for one present field:
required-but-empty, minimum length, maximum length, pattern (skipped when
the regex does not compile, i.e. `re` returns `none`). -/
def checkFieldErrors (re : String → String → Option Bool)
    (field_def : FieldDefinition) (field_name value : String) :
    List ValidationError :=
  (if field_def.is_required && strTrim value == "" then
    [⟨field_name, "Required field cannot be empty", .Error⟩]
   else []) ++
  (match field_def.validation_rules.min_length with
   | some min_len =>
     if value.data.length < min_len then
       [⟨field_name, "Value too short, minimum length is " ++ toString min_len,
         .Error⟩]
     else []
   | none => []) ++
  (match field_def.validation_rules.max_length with
   | some max_len =>
     if max_len < value.data.length then
       [⟨field_name, "Value too long, maximum length is " ++ toString max_len,
         .Error⟩]
     else []
   | none => []) ++
  (match field_def.validation_rules.pattern with
   | some pattern =>
     match re pattern value with
     | some false =>
       [⟨field_name, "Value does not match required pattern: " ++ pattern,
         .Error⟩]
     | _ => []
   | none => [])

/-- The warning check of `validate_field_values` for one present field:
a value absent from `allowed_values`. -/
def checkFieldWarnings (field_def : FieldDefinition)
    (field_name value : String) : List ValidationError :=
  match field_def.validation_rules.allowed_values with
  | some allowed_values =>
    if !allowed_values.contains value then
      [⟨field_name,
        "Value '" ++ value ++ "' not in allowed values: " ++
          debugListStr allowed_values, .Warning⟩]
    else []
  | none => []

/-- The per-field accumulation loop of `validate_field_values`, emitting
the error list, warning list and field summaries in field order (the
recursion produces the same lists as the Rust loop's in-place pushes). -/
def validateAcc (re : String → String → Option Bool)
    (enhanced_map : EnhancedConversionMap) :
    List (String × String) →
    List ValidationError × List ValidationError ×
      List (String × FieldValidationSummary)
  | [] => ([], [], [])
  | fv :: rest =>
    let t := validateAcc re enhanced_map rest
    match lookupL enhanced_map.field_definitions fv.1 with
    | some field_def =>
      let es := checkFieldErrors re field_def fv.1 fv.2
      let ws := checkFieldWarnings field_def fv.1 fv.2
      (es ++ t.1, ws ++ t.2.1,
        (fv.1, ⟨es.length == 0, es.length, ws.length⟩) :: t.2.2)
    | none => (t.1, t.2.1, (fv.1, ⟨true, 0, 0⟩) :: t.2.2)

/-- `validate_field_values`, parameterized by the regex matcher:
`is_valid` is `errors.is_empty()`. -/
def validate_field_values (re : String → String → Option Bool)
    (field_data : List (String × String))
    (enhanced_map : EnhancedConversionMap) : ValidationResult :=
  let acc := validateAcc re enhanced_map field_data
  ⟨acc.1.isEmpty, acc.1, acc.2.1, acc.2.2⟩

/-! ## Helper lemmas on the string primitives -/

theorem isPrefixList_head {a : Char} {p l : List Char}
    (h : isPrefixList (a :: p) l = true) : l.head? = some a := by
  cases l with
  | nil => simp [isPrefixList] at h
  | cons b bs =>
    simp only [isPrefixList, Bool.and_eq_true, decide_eq_true_eq] at h
    simp [h.1]

theorem revHead_mem {s : String} {a : Char}
    (h : s.data.reverse.head? = some a) : a ∈ s.data := by
  rw [← List.mem_reverse]
  cases hr : s.data.reverse with
  | nil => rw [hr] at h; simp at h
  | cons b bs =>
    rw [hr] at h
    simp only [List.head?_cons, Option.some.injEq] at h
    rw [← h]
    exact List.mem_cons_self _ _

theorem strEndsWith_revHead {s pat : String} {a : Char} {p : List Char}
    (hp : pat.data.reverse = a :: p) (h : strEndsWith s pat = true) :
    s.data.reverse.head? = some a := by
  rw [strEndsWith, hp] at h
  exact isPrefixList_head h

theorem strEndsWith_false_of_revHead {s pat : String} {g a : Char}
    {p : List Char} (hs : s.data.reverse.head? = some g)
    (hp : pat.data.reverse = a :: p) (hne : a ≠ g) :
    strEndsWith s pat = false := by
  cases hE : strEndsWith s pat with
  | false => rfl
  | true =>
    have := strEndsWith_revHead hp hE
    rw [hs] at this
    exact absurd (Option.some.inj this).symm hne

theorem all_digits_not_of_mem {l : List Char} {g : Char} (hl : g ∈ l)
    (hd : isDigitC g = false) : ¬(l.all isDigitC = true) := by
  intro hall
  rw [List.all_eq_true] at hall
  have := hall g hl
  rw [hd] at this
  cases this

theorem parseU32_none_of_mem {s : String} {g : Char} (hg : g ∈ s.data)
    (hd : isDigitC g = false) (hp : g ≠ '+') : parseU32 s = none := by
  rw [parseU32]
  by_cases hplus : s.data.head? = some '+'
  · rw [if_pos hplus, if_neg]
    rintro ⟨-, h2, -⟩
    refine all_digits_not_of_mem ?_ hd h2
    cases hdata : s.data with
    | nil => rw [hdata] at hg; cases hg
    | cons c t =>
      rw [hdata] at hg hplus
      simp only [List.head?_cons, Option.some.injEq] at hplus
      rcases List.mem_cons.mp hg with h | h
      · exact absurd (h.trans hplus) hp
      · simpa [hdata] using h
  · rw [if_neg hplus, if_neg]
    rintro ⟨-, h2, -⟩
    exact all_digits_not_of_mem hg hd h2

theorem parseU32_digits {l : List Char} (h1 : l ≠ [])
    (h2 : l.all isDigitC = true) (h3 : digitsToNat l < 2 ^ 32) :
    parseU32 ⟨l⟩ = some (digitsToNat l) := by
  rw [parseU32]
  have hplus : ¬((⟨l⟩ : String).data.head? = some '+') := by
    show ¬(l.head? = some '+')
    cases l with
    | nil => simp
    | cons c t =>
      simp only [List.head?_cons, Option.some.injEq]
      intro hc
      rw [List.all_eq_true] at h2
      have := h2 c (List.mem_cons_self _ _)
      rw [hc] at this
      exact absurd this (by decide)
  rw [if_neg hplus]
  exact if_pos ⟨h1, h2, h3⟩

theorem isWS_false_of_isDigitC {c : Char} (h : isDigitC c = true) :
    isWS c = false := by
  simp only [isDigitC, Bool.and_eq_true, decide_eq_true_eq] at h
  obtain ⟨h1, h2⟩ := h
  simp only [isWS, Bool.or_eq_false_iff, decide_eq_false_iff_not]
  refine ⟨⟨⟨⟨⟨?_, ?_⟩, ?_⟩, ?_⟩, ?_⟩, ?_⟩ <;>
    (rintro rfl; exact absurd h1 (by decide))

theorem upperChar_of_digit {c : Char} (h : isDigitC c = true) :
    upperChar c = c := by
  simp only [isDigitC, Bool.and_eq_true, decide_eq_true_eq] at h
  rw [upperChar, if_neg]
  simp only [Bool.and_eq_true, decide_eq_true_eq, not_and]
  intro ha
  exact absurd (le_trans ha h.2) (by decide)

theorem dropWhile_isWS_eq_self {l : List Char}
    (h : ∀ c ∈ l, isWS c = false) : l.dropWhile isWS = l := by
  cases l with
  | nil => rfl
  | cons c t =>
    rw [List.dropWhile_cons, if_neg]
    rw [h c (List.mem_cons_self _ _)]
    simp

theorem trimList_of_not_ws {l : List Char} (h : ∀ c ∈ l, isWS c = false) :
    trimList l = l := by
  rw [trimList, dropWhile_isWS_eq_self h, dropWhile_isWS_eq_self, List.reverse_reverse]
  intro c hc
  exact h c (List.mem_reverse.mp hc)

theorem strTrim_of_digits {s : String} (h : s.data.all isDigitC = true) :
    strTrim s = s := by
  rw [strTrim, trimList_of_not_ws]
  · intro c hc
    exact isWS_false_of_isDigitC (List.all_eq_true.mp h c hc)

theorem map_eq_self_of {f : Char → Char} {l : List Char}
    (h : ∀ c ∈ l, f c = c) : l.map f = l := by
  induction l with
  | nil => rfl
  | cons c t ih =>
    rw [List.map_cons, h c (List.mem_cons_self _ _), ih]
    intro x hx
    exact h x (List.mem_cons_of_mem _ hx)

theorem strUpper_of_digits {s : String} (h : s.data.all isDigitC = true) :
    strUpper s = s := by
  rw [strUpper, map_eq_self_of]
  intro c hc
  exact upperChar_of_digit (List.all_eq_true.mp h c hc)

theorem strEndsWith_false_of_all_digits {s : String}
    (h : s.data.all isDigitC = true) {pat : String} {a : Char}
    {p : List Char} (hp : pat.data.reverse = a :: p)
    (ha : isDigitC a = false) : strEndsWith s pat = false := by
  cases hE : strEndsWith s pat with
  | false => rfl
  | true =>
    exact absurd h
      (all_digits_not_of_mem (revHead_mem (strEndsWith_revHead hp hE)) ha)

theorem takeWhile_all_append {p : Char → Bool} {l : List Char}
    (h : l.all p = true) {g : Char} (hg : p g = false) (rest : List Char) :
    (l ++ g :: rest).takeWhile p = l := by
  induction l with
  | nil => simp [List.takeWhile_cons, hg]
  | cons c t ih =>
    rw [List.all_cons, Bool.and_eq_true] at h
    rw [List.cons_append, List.takeWhile_cons, if_pos h.1, ih h.2]

/-! ## Claim C6: `normalize_speed` -/

/-- C6 (counterexample): the claim asserts that every bare ASCII-digit
input yields that digit string with `"G"` appended, but
`normalize_speed_value` renders the parsed integer, so leading zeros are
dropped: `"007"` gives `"7G"`, not `"007G"`. -/
theorem c6_counterexample :
    normalize_speed_value "007" = "7G" ∧ "7G" ≠ "007G" := by
  constructor <;> decide

/-- C6 (amended): `normalize_speed` satisfies the five concrete
equations; a bare ASCII-digit string parseable as a `u32` yields the
decimal numeral of the parsed value (leading zeros dropped) with `"G"`
appended; and a non-empty input whose trimmed upper-casing ends in `G`
or `M` is returned trimmed and upper-cased. -/
theorem c6_normalize_speed (s : String) :
    (normalize_speed_value "25GB" = "25G" ∧
     normalize_speed_value "25 Gbps" = "25G" ∧
     normalize_speed_value "100 MB" = "100M" ∧
     normalize_speed_value "10G" = "10G" ∧
     normalize_speed_value "" = "") ∧
    (s.data ≠ [] → s.data.all isDigitC = true → digitsToNat s.data < 2 ^ 32 →
      normalize_speed_value s = toString (digitsToNat s.data) ++ "G") ∧
    (s ≠ "" →
      (strEndsWith (strUpper (strTrim s)) "G" = true ∨
       strEndsWith (strUpper (strTrim s)) "M" = true) →
      normalize_speed_value s = strUpper (strTrim s)) := by
  refine ⟨⟨by decide, by decide, by decide, by decide, by decide⟩, ?_, ?_⟩
  · intro hne hall hlt
    have hsne : s ≠ "" := by
      intro h
      rw [h] at hne
      exact hne rfl
    have htrim : strTrim s = s := strTrim_of_digits hall
    have hupper : strUpper s = s := strUpper_of_digits hall
    have hgbps : strEndsWith s "GBPS" = false :=
      strEndsWith_false_of_all_digits hall
        (show ("GBPS" : String).data.reverse = 'S' :: ['P', 'B', 'G'] by decide)
        (by decide)
    have hgb : strEndsWith s "GB" = false :=
      strEndsWith_false_of_all_digits hall
        (show ("GB" : String).data.reverse = 'B' :: ['G'] by decide) (by decide)
    have hmbps : strEndsWith s "MBPS" = false :=
      strEndsWith_false_of_all_digits hall
        (show ("MBPS" : String).data.reverse = 'S' :: ['P', 'B', 'M'] by decide)
        (by decide)
    have hmb : strEndsWith s "MB" = false :=
      strEndsWith_false_of_all_digits hall
        (show ("MB" : String).data.reverse = 'B' :: ['M'] by decide) (by decide)
    have hparse : parseU32 s = some (digitsToNat s.data) := by
      have := parseU32_digits hne hall hlt
      simpa using this
    rw [normalize_speed_value, if_neg hsne]
    simp only [htrim, hupper, hgbps, hgb, hmbps, hmb, Bool.or_self,
      Bool.false_eq_true, if_false, hparse]
  · intro hsne hend
    rcases hend with hG | hM
    · have hgG : (strUpper (strTrim s)).data.reverse.head? = some 'G' :=
        strEndsWith_revHead
          (show ("G" : String).data.reverse = 'G' :: [] by decide) hG
      have hGBPS : strEndsWith (strUpper (strTrim s)) "GBPS" = false :=
        strEndsWith_false_of_revHead hgG
          (show ("GBPS" : String).data.reverse = 'S' :: ['P', 'B', 'G'] by decide)
          (by decide)
      have hGB : strEndsWith (strUpper (strTrim s)) "GB" = false :=
        strEndsWith_false_of_revHead hgG
          (show ("GB" : String).data.reverse = 'B' :: ['G'] by decide)
          (by decide)
      have hMBPS : strEndsWith (strUpper (strTrim s)) "MBPS" = false :=
        strEndsWith_false_of_revHead hgG
          (show ("MBPS" : String).data.reverse = 'S' :: ['P', 'B', 'M'] by decide)
          (by decide)
      have hMB : strEndsWith (strUpper (strTrim s)) "MB" = false :=
        strEndsWith_false_of_revHead hgG
          (show ("MB" : String).data.reverse = 'B' :: ['M'] by decide)
          (by decide)
      have hparse : parseU32 (strUpper (strTrim s)) = none :=
        parseU32_none_of_mem (revHead_mem hgG) (by decide) (by decide)
      have hl1 : strUpper (strTrim s) ≠ "1000" := by
        intro h; rw [h] at hgG; exact absurd hgG (by decide)
      have hl2 : strUpper (strTrim s) ≠ "10000" := by
        intro h; rw [h] at hgG; exact absurd hgG (by decide)
      have hl3 : strUpper (strTrim s) ≠ "25000" := by
        intro h; rw [h] at hgG; exact absurd hgG (by decide)
      have hl4 : strUpper (strTrim s) ≠ "40000" := by
        intro h; rw [h] at hgG; exact absurd hgG (by decide)
      have hl5 : strUpper (strTrim s) ≠ "100000" := by
        intro h; rw [h] at hgG; exact absurd hgG (by decide)
      rw [normalize_speed_value, if_neg hsne]
      simp only [hGBPS, hGB, hMBPS, hMB, hG, Bool.or_self, Bool.false_eq_true,
        if_false, hparse, hl1, hl2, hl3, hl4, hl5, Bool.true_or, if_true]
    · have hgM : (strUpper (strTrim s)).data.reverse.head? = some 'M' :=
        strEndsWith_revHead
          (show ("M" : String).data.reverse = 'M' :: [] by decide) hM
      have hGBPS : strEndsWith (strUpper (strTrim s)) "GBPS" = false :=
        strEndsWith_false_of_revHead hgM
          (show ("GBPS" : String).data.reverse = 'S' :: ['P', 'B', 'G'] by decide)
          (by decide)
      have hGB : strEndsWith (strUpper (strTrim s)) "GB" = false :=
        strEndsWith_false_of_revHead hgM
          (show ("GB" : String).data.reverse = 'B' :: ['G'] by decide)
          (by decide)
      have hMBPS : strEndsWith (strUpper (strTrim s)) "MBPS" = false :=
        strEndsWith_false_of_revHead hgM
          (show ("MBPS" : String).data.reverse = 'S' :: ['P', 'B', 'M'] by decide)
          (by decide)
      have hMB : strEndsWith (strUpper (strTrim s)) "MB" = false :=
        strEndsWith_false_of_revHead hgM
          (show ("MB" : String).data.reverse = 'B' :: ['M'] by decide)
          (by decide)
      have hparse : parseU32 (strUpper (strTrim s)) = none :=
        parseU32_none_of_mem (revHead_mem hgM) (by decide) (by decide)
      have hl1 : strUpper (strTrim s) ≠ "1000" := by
        intro h; rw [h] at hgM; exact absurd hgM (by decide)
      have hl2 : strUpper (strTrim s) ≠ "10000" := by
        intro h; rw [h] at hgM; exact absurd hgM (by decide)
      have hl3 : strUpper (strTrim s) ≠ "25000" := by
        intro h; rw [h] at hgM; exact absurd hgM (by decide)
      have hl4 : strUpper (strTrim s) ≠ "40000" := by
        intro h; rw [h] at hgM; exact absurd hgM (by decide)
      have hl5 : strUpper (strTrim s) ≠ "100000" := by
        intro h; rw [h] at hgM; exact absurd hgM (by decide)
      rw [normalize_speed_value, if_neg hsne]
      simp only [hGBPS, hGB, hMBPS, hMB, hM, Bool.or_self, Bool.false_eq_true,
        if_false, hparse, hl1, hl2, hl3, hl4, hl5, Bool.or_true, if_true]

/-- C6 (witness): the amended theorem applied at `"42"` (bare digits) and
`" 25g "` (canonical token modulo trim and case). -/
theorem c6_witness :
    normalize_speed_value "42" = "42G" ∧ normalize_speed_value " 25g " = "25G" := by
  constructor
  · exact (c6_normalize_speed "42").2.1 (by decide) (by decide) (by decide)
  · have h := (c6_normalize_speed " 25g ").2.2 (by decide) (Or.inl (by decide))
    rw [h]
    decide

/-! ## Claim C7: `lag_mode_conversion` -/

/-- C7 (counterexample): the claim asserts that any input other than the
truthy/falsy tokens and the exact canonical values passes through
unchanged, but `convert_lag_mode_value` matches the canonical values on
the trimmed lower-cased input and returns the lower-cased form:
`"Static"` becomes `"static"`. -/
theorem c7_counterexample :
    convert_lag_mode_value "Static" = "static" ∧ "static" ≠ "Static" := by
  constructor <;> decide

/-- C7 (amended): `lag_mode_conversion` matches on the trimmed,
lower-cased input: truthy tokens map to `"lacp_active"`, falsy tokens to
`"none"`, canonical values (matched case-insensitively) to their
lower-cased form, and every input whose trimmed lower-casing is none of
these tokens passes through unchanged. -/
theorem c7_lag_mode (s : String) :
    (strLower (strTrim s) = "yes" ∨ strLower (strTrim s) = "y" ∨
     strLower (strTrim s) = "true" ∨ strLower (strTrim s) = "1" ∨
     strLower (strTrim s) = "lacp" → convert_lag_mode_value s = "lacp_active") ∧
    (strLower (strTrim s) = "no" ∨ strLower (strTrim s) = "n" ∨
     strLower (strTrim s) = "false" ∨ strLower (strTrim s) = "0" →
     convert_lag_mode_value s = "none") ∧
    (strLower (strTrim s) = "lacp_active" ∨ strLower (strTrim s) = "static" ∨
     strLower (strTrim s) = "none" →
     convert_lag_mode_value s = strLower (strTrim s)) ∧
    (strLower (strTrim s) ∉
      (["yes", "y", "true", "1", "no", "n", "false", "0",
        "lacp_active", "static", "none", "lacp"] : List String) →
     convert_lag_mode_value s = s) := by
  by_cases hs : s = ""
  · subst hs
    refine ⟨?_, ?_, ?_, ?_⟩
    · rintro (h | h | h | h | h) <;> exact absurd h (by decide)
    · rintro (h | h | h | h) <;> exact absurd h (by decide)
    · rintro (h | h | h) <;> exact absurd h (by decide)
    · intro _
      rfl
  · refine ⟨?_, ?_, ?_, ?_⟩
    · rintro (h | h | h | h | h) <;>
        simp [convert_lag_mode_value, if_neg hs, h]
    · rintro (h | h | h | h) <;>
        simp [convert_lag_mode_value, if_neg hs, h]
    · rintro (h | h | h) <;>
        simp [convert_lag_mode_value, if_neg hs, h]
    · intro hmem
      simp only [List.mem_cons, List.mem_singleton, not_or] at hmem
      obtain ⟨h1, h2, h3, h4, h5, h6, h7, h8, h9, h10, h11, h12, -⟩ := hmem
      simp [convert_lag_mode_value, if_neg hs, h1, h2, h3, h4, h5, h6, h7,
        h8, h9, h10, h11, h12]

/-- C7 (witness): the amended theorem applied at the concrete inputs
`" YES "`, `"No"`, `"NONE"` and `"maybe"`. -/
theorem c7_witness :
    convert_lag_mode_value " YES " = "lacp_active" ∧
    convert_lag_mode_value "No" = "none" ∧
    convert_lag_mode_value "NONE" = "none" ∧
    convert_lag_mode_value "maybe" = "maybe" := by
  refine ⟨(c7_lag_mode " YES ").1 (Or.inl (by decide)),
    (c7_lag_mode "No").2.1 (Or.inl (by decide)), ?_, ?_⟩
  · have h := (c7_lag_mode "NONE").2.2.1 (Or.inr (Or.inr (by decide)))
    rw [h]
    decide
  · exact (c7_lag_mode "maybe").2.2.2 (by decide)

/-! ## Claim C8: `generate_interface_name` -/

theorem strConcat_inj {l m : List Char} {g : Char}
    (h : (⟨l ++ [g]⟩ : String) = ⟨m ++ [g]⟩) : l = m := by
  have hd : l ++ [g] = m ++ [g] := congrArg String.data h
  have hr := congrArg List.reverse hd
  simp only [List.reverse_append, List.reverse_cons, List.reverse_nil,
    List.nil_append, List.cons_append, List.singleton_append] at hr
  exact List.reverse_injective (List.cons.inj hr).2

theorem strConcatG_ne_lastM {l : List Char} {t : String}
    (ht : t.data.getLast? = some 'M') : (⟨l ++ ['G']⟩ : String) ≠ t := by
  intro heq
  have : (l ++ ['G']).getLast? = some 'M' := by
    rw [show l ++ ['G'] = t.data from congrArg String.data heq]
    exact ht
  rw [List.getLast?_concat] at this
  exact absurd (Option.some.inj this) (by decide)

/-- The interface-type tier for integer gigabit tokens above 10G is
`"et"`. -/
theorem dip_et_of_digitsG {sp : String} {l : List Char} (hne : l ≠ [])
    (hall : l.all isDigitC = true) (hgt : 10 < digitsToNat l)
    (hlt : digitsToNat l < 2 ^ 32)
    (hns : normalize_speed_value sp = ⟨l ++ ['G']⟩) :
    determineInterfacePrefix sp = "et" := by
  have c1a : ¬((⟨l ++ ['G']⟩ : String) = "1G") := by
    intro h
    have hl : l = ['1'] := strConcat_inj (m := ['1']) h
    rw [hl] at hgt
    exact absurd hgt (by decide)
  have c2a : ¬((⟨l ++ ['G']⟩ : String) = "10G") := by
    intro h
    have hl : l = ['1', '0'] := strConcat_inj (m := ['1', '0']) h
    rw [hl] at hgt
    exact absurd hgt (by decide)
  have c1b := strConcatG_ne_lastM (l := l) (t := "1000M") (by decide)
  have c2b := strConcatG_ne_lastM (l := l) (t := "10000M") (by decide)
  have c3b := strConcatG_ne_lastM (l := l) (t := "25000M") (by decide)
  have c4b := strConcatG_ne_lastM (l := l) (t := "40000M") (by decide)
  have c5b := strConcatG_ne_lastM (l := l) (t := "100000M") (by decide)
  have htake : (⟨l ++ ['G']⟩ : String).data.takeWhile isDigitC = l := by
    show (l ++ 'G' :: []).takeWhile isDigitC = l
    exact takeWhile_all_append hall (by decide) []
  have hparse : parseU32 ⟨l⟩ = some (digitsToNat l) :=
    parseU32_digits hne hall hlt
  have hendG : strEndsWith ⟨l ++ ['G']⟩ "G" = true := by
    show isPrefixList ['G'] (l ++ ['G']).reverse = true
    rw [List.reverse_append]
    simp [isPrefixList]
  simp only [determineInterfacePrefix, hns]
  by_cases h3 : (⟨l ++ ['G']⟩ : String) = "25G" ∨
      (⟨l ++ ['G']⟩ : String) = "40G" ∨ (⟨l ++ ['G']⟩ : String) = "100G"
  · rcases h3 with h | h | h <;>
      simp [h, c1a, c1b, c2a, c2b]
  · push_neg at h3
    obtain ⟨h25, h40, h100⟩ := h3
    simp only [c1a, c2a, c1b, c2b, c3b, c4b, c5b, h25, h40, h100,
      Bool.or_self, Bool.false_eq_true, if_false, htake, hparse, hendG,
      if_true, decide_eq_true_eq]
    split_ifs <;> first | rfl | omega

/-- A normalized speed that does not begin with a digit falls back to the
conservative `"ge"` tier. -/
theorem dip_ge_of_head_nondigit {sp : String} {c : Char}
    (hh : (normalize_speed_value sp).data.head? = some c)
    (hcd : isDigitC c = false) : determineInterfacePrefix sp = "ge" := by
  have hne : ∀ t : String, ∀ d : Char, t.data.head? = some d →
      isDigitC d = true → normalize_speed_value sp ≠ t := by
    intro t d htd hdd heq
    rw [heq] at hh
    rw [htd] at hh
    rw [← Option.some.inj hh] at hcd
    rw [hdd] at hcd
    cases hcd
  have h1 := hne "1G" '1' rfl (by decide)
  have h2 := hne "1000M" '1' rfl (by decide)
  have h3 := hne "10G" '1' rfl (by decide)
  have h4 := hne "10000M" '1' rfl (by decide)
  have h5 := hne "25G" '2' rfl (by decide)
  have h6 := hne "25000M" '2' rfl (by decide)
  have h7 := hne "40G" '4' rfl (by decide)
  have h8 := hne "40000M" '4' rfl (by decide)
  have h9 := hne "100G" '1' rfl (by decide)
  have h10 := hne "100000M" '1' rfl (by decide)
  have htake : (normalize_speed_value sp).data.takeWhile isDigitC = [] := by
    cases hd : (normalize_speed_value sp).data with
    | nil => rfl
    | cons a t =>
      rw [hd] at hh
      rw [List.head?_cons] at hh
      rw [List.takeWhile_cons, Option.some.inj hh, hcd]
      simp
  have hparse : parseU32 ⟨[]⟩ = none := rfl
  simp only [determineInterfacePrefix, h1, h2, h3, h4, h5, h6, h7, h8, h9,
    h10, decide_False, Bool.or_self, Bool.false_eq_true, if_false, htake,
    hparse]

/-- C8: `generate_interface_name` passes non-numeric inputs through
unchanged; on a numeric port it emits `<prefix>-0/0/<port>` with the
prefix chosen from the context's normalized link speed: 1G tokens give
`ge`, 10G gives `xe`, integer gigabit tokens above 10G give `et`, and an
absent or digit-free speed gives `ge`; in particular port `"5"` at speed
`"25G"` gives `"et-0/0/5"`. -/
theorem c8_generate_interface_name :
    (∀ (s : String) (ctx : Option (List (String × String))),
      isNumericPort s = false → generate_interface_name s ctx = .ok s) ∧
    (∀ (s : String) (ctx : Option (List (String × String))) (n : Nat),
      parseU32 (strTrim s) = some n →
      generate_interface_name s ctx =
        .ok (determineInterfacePrefix
            ((ctx.bind fun c => lookupL c "link_speed").getD "") ++
          "-0/0/" ++ toString n)) ∧
    (∀ sp : String, normalize_speed_value sp = "1G" →
      determineInterfacePrefix sp = "ge") ∧
    (∀ sp : String, normalize_speed_value sp = "10G" →
      determineInterfacePrefix sp = "xe") ∧
    (∀ (sp : String) (l : List Char), l ≠ [] → l.all isDigitC = true →
      10 < digitsToNat l → digitsToNat l < 2 ^ 32 →
      normalize_speed_value sp = ⟨l ++ ['G']⟩ →
      determineInterfacePrefix sp = "et") ∧
    (∀ (sp : String) (c : Char),
      (normalize_speed_value sp).data.head? = some c → isDigitC c = false →
      determineInterfacePrefix sp = "ge") ∧
    determineInterfacePrefix "" = "ge" ∧
    generate_interface_name "5" (some [("link_speed", "25G")]) =
      .ok "et-0/0/5" := by
  refine ⟨?_, ?_, ?_, ?_, ?_, ?_, by decide, rfl⟩
  · intro s ctx h
    simp [generate_interface_name, h]
  · intro s ctx n h
    simp [generate_interface_name, isNumericPort, h]
  · intro sp hns
    simp [determineInterfacePrefix, hns]
  · intro sp hns
    simp [determineInterfacePrefix, hns]
  · intro sp l hne hall hgt hlt hns
    exact dip_et_of_digitsG hne hall hgt hlt hns
  · intro sp c hh hcd
    exact dip_ge_of_head_nondigit hh hcd

/-- C8 (witness): the theorem applied at concrete inputs — a non-numeric
input, a numeric port with 1G speed, the 11G tier, and a digit-free
speed. -/
theorem c8_witness :
    generate_interface_name "eth0" none = .ok "eth0" ∧
    generate_interface_name "3" (some [("link_speed", "1G")]) =
      .ok (determineInterfacePrefix "1G" ++ "-0/0/" ++ toString 3) ∧
    determineInterfacePrefix "11G" = "et" ∧
    determineInterfacePrefix "FAST" = "ge" := by
  refine ⟨c8_generate_interface_name.1 "eth0" none (by decide),
    c8_generate_interface_name.2.1 "3" (some [("link_speed", "1G")]) 3
      (by decide), ?_, ?_⟩
  · exact c8_generate_interface_name.2.2.2.2.1 "11G" ['1', '1'] (by decide)
      (by decide) (by decide) (by decide) (by decide)
  · exact c8_generate_interface_name.2.2.2.2.2.1 "FAST" 'F' (by decide)
      (by decide)

/-! ## Claim C4: within-row merged-cell propagation -/

theorem propagateLoop_length (cs : List Cell) (carry : Option (String × Nat))
    (i : Nat) : (propagateLoop cs carry i).length = cs.length := by
  induction cs generalizing carry i with
  | nil => rfl
  | cons c rest ih =>
    cases c with
    | some v => simp [propagateLoop, ih]
    | none =>
      cases carry with
      | none => simp [propagateLoop, ih]
      | some vs =>
        rcases vs with ⟨v, s⟩
        by_cases hd : i - s ≤ 3 <;> simp [propagateLoop, hd, ih]

/-- Soundness of the scan: a populated output cell is either the original
cell, or it was copied from the nearest preceding non-empty cell at most
3 columns back (all cells in between being empty), or — for a recursive
call — from the incoming carry when it is at most 3 columns old and
everything before the cell is empty. -/
theorem propagateLoop_fill (cs : List Cell) (carry : Option (String × Nat))
    (i : Nat) : ∀ (k : Nat) (v : String),
    (propagateLoop cs carry i).get? k = some (some v) →
    cs.get? k = some (some v) ∨
    (∃ j, j < k ∧ k - j ≤ 3 ∧ cs.get? j = some (some v) ∧
      ∀ m, j < m → m ≤ k → cs.get? m = some none) ∨
    (∃ s, carry = some (v, s) ∧ i + k - s ≤ 3 ∧
      ∀ m, m ≤ k → cs.get? m = some none) := by
  induction cs generalizing carry i with
  | nil =>
    intro k v h
    rw [show propagateLoop [] carry i = [] from rfl] at h
    simp at h
  | cons c rest ih =>
    intro k v h
    cases c with
    | some w =>
      rw [show propagateLoop (some w :: rest) carry i =
        some w :: propagateLoop rest (some (w, i)) (i + 1) from rfl] at h
      cases k with
      | zero =>
        simp only [List.get?_cons_zero, Option.some.injEq] at h
        left
        simp [← h]
      | succ k =>
        rw [List.get?_cons_succ] at h
        rcases ih (some (w, i)) (i + 1) k v h with h1 | h2 | h3
        · left
          simpa using h1
        · right; left
          obtain ⟨j, hj1, hj2, hj3, hj4⟩ := h2
          refine ⟨j + 1, by omega, by omega, by simpa using hj3, ?_⟩
          intro m hm1 hm2
          have hm : m = (m - 1) + 1 := by omega
          rw [hm, List.get?_cons_succ]
          exact hj4 (m - 1) (by omega) (by omega)
        · right; left
          obtain ⟨s, hs1, hs2, hs3⟩ := h3
          obtain ⟨hv, hsi⟩ : w = v ∧ i = s := by
            have := Option.some.inj hs1
            exact ⟨congrArg Prod.fst this, congrArg Prod.snd this⟩
          refine ⟨0, by omega, by omega, by simp [hv], ?_⟩
          intro m hm1 hm2
          have hm : m = (m - 1) + 1 := by omega
          rw [hm, List.get?_cons_succ]
          exact hs3 (m - 1) (by omega)
    | none =>
      cases hcar : carry with
      | some vs =>
        rcases vs with ⟨w, s⟩
        rw [hcar] at h
        by_cases hd : i - s ≤ 3
        · rw [show propagateLoop (none :: rest) (some (w, s)) i =
            some w :: propagateLoop rest (some (w, s)) (i + 1) from
            by simp [propagateLoop, hd]] at h
          cases k with
          | zero =>
            simp only [List.get?_cons_zero, Option.some.injEq] at h
            right; right
            refine ⟨s, by rw [← h], by omega, ?_⟩
            intro m hm
            have hm0 : m = 0 := Nat.le_zero.mp hm
            subst hm0
            rfl
          | succ k =>
            rw [List.get?_cons_succ] at h
            rcases ih (some (w, s)) (i + 1) k v h with h1 | h2 | h3
            · left
              simpa using h1
            · right; left
              obtain ⟨j, hj1, hj2, hj3, hj4⟩ := h2
              refine ⟨j + 1, by omega, by omega, by simpa using hj3, ?_⟩
              intro m hm1 hm2
              have hm : m = (m - 1) + 1 := by omega
              rw [hm, List.get?_cons_succ]
              exact hj4 (m - 1) (by omega) (by omega)
            · right; right
              obtain ⟨s', hs1, hs2, hs3⟩ := h3
              obtain ⟨hv, hsi⟩ : w = v ∧ s = s' := by
                have := Option.some.inj hs1
                exact ⟨congrArg Prod.fst this, congrArg Prod.snd this⟩
              subst hv
              subst hsi
              refine ⟨s, rfl, by omega, ?_⟩
              intro m hm
              cases m with
              | zero => rfl
              | succ m =>
                rw [List.get?_cons_succ]
                exact hs3 m (by omega)
        · rw [show propagateLoop (none :: rest) (some (w, s)) i =
            none :: propagateLoop rest none (i + 1) from
            by simp [propagateLoop, hd]] at h
          cases k with
          | zero => simp at h
          | succ k =>
            rw [List.get?_cons_succ] at h
            rcases ih none (i + 1) k v h with h1 | h2 | h3
            · left
              simpa using h1
            · right; left
              obtain ⟨j, hj1, hj2, hj3, hj4⟩ := h2
              refine ⟨j + 1, by omega, by omega, by simpa using hj3, ?_⟩
              intro m hm1 hm2
              have hm : m = (m - 1) + 1 := by omega
              rw [hm, List.get?_cons_succ]
              exact hj4 (m - 1) (by omega) (by omega)
            · obtain ⟨s', hs1, -, -⟩ := h3
              cases hs1
      | none =>
        rw [hcar] at h
        rw [show propagateLoop (none :: rest) none i =
          none :: propagateLoop rest none (i + 1) from rfl] at h
        cases k with
        | zero => simp at h
        | succ k =>
          rw [List.get?_cons_succ] at h
          rcases ih none (i + 1) k v h with h1 | h2 | h3
          · left
            simpa using h1
          · right; left
            obtain ⟨j, hj1, hj2, hj3, hj4⟩ := h2
            refine ⟨j + 1, by omega, by omega, by simpa using hj3, ?_⟩
            intro m hm1 hm2
            have hm : m = (m - 1) + 1 := by omega
            rw [hm, List.get?_cons_succ]
            exact hj4 (m - 1) (by omega) (by omega)
          · obtain ⟨s', hs1, -, -⟩ := h3
            cases hs1

/-- C4: within-row horizontal reconstruction (1) returns a row with more
than 5 cells and fewer than 30% non-empty unchanged, (2) preserves the
row length, (3) fills a cell only from the nearest preceding non-empty
cell at most 3 columns back (with only empty cells in between) — beyond
that distance the carry is cleared and nothing is copied, and (4) leaves
a cell empty when it and everything before it is empty (leading empty
cells stay empty). -/
theorem c4_propagate (row : List Cell) :
    (row.length > 5 →
      10 * (row.filter fun c => !cellIsEmpty c).length < 3 * row.length →
      propagate_merged_cells_in_row row = row) ∧
    (propagate_merged_cells_in_row row).length = row.length ∧
    (∀ (k : Nat) (v : String),
      (propagate_merged_cells_in_row row).get? k = some (some v) →
      row.get? k = some (some v) ∨
      (∃ j, j < k ∧ k - j ≤ 3 ∧ row.get? j = some (some v) ∧
        ∀ m, j < m → m ≤ k → row.get? m = some none)) ∧
    (∀ k : Nat, (∀ m, m ≤ k → row.get? m = some none) →
      (propagate_merged_cells_in_row row).get? k = some none) := by
  by_cases hc : row.length > 5 ∧
      10 * (row.filter fun c => !cellIsEmpty c).length < 3 * row.length
  · have heq : propagate_merged_cells_in_row row = row := by
      simp [propagate_merged_cells_in_row, hc.1, hc.2]
    refine ⟨fun _ _ => heq, by rw [heq], ?_, ?_⟩
    · intro k v h
      rw [heq] at h
      exact Or.inl h
    · intro k hall
      rw [heq]
      exact hall k le_rfl
  · have heq : propagate_merged_cells_in_row row = propagateLoop row none 0 := by
      rw [propagate_merged_cells_in_row, if_neg]
      simpa [Bool.and_eq_true, decide_eq_true_eq] using hc
    refine ⟨fun h1 h2 => absurd ⟨h1, h2⟩ hc,
      (by rw [heq]; exact propagateLoop_length row none 0), ?_, ?_⟩
    · intro k v h
      rw [heq] at h
      rcases propagateLoop_fill row none 0 k v h with h1 | h2 | h3
      · exact Or.inl h1
      · exact Or.inr h2
      · obtain ⟨s, hs1, -⟩ := h3
        cases hs1
    · intro k hall
      rw [heq]
      have hk : k < row.length := by
        rcases List.get?_eq_some.mp (hall k le_rfl) with ⟨hk, -⟩
        exact hk
      cases hres : (propagateLoop row none 0).get? k with
      | none =>
        have := List.get?_eq_none.mp hres
        rw [propagateLoop_length] at this
        omega
      | some c =>
        cases c with
        | none => rfl
        | some v =>
          exfalso
          rcases propagateLoop_fill row none 0 k v hres with h1 | h2 | h3
          · rw [hall k le_rfl] at h1
            cases Option.some.inj h1
          · obtain ⟨j, hj1, -, hj3, -⟩ := h2
            rw [hall j (by omega)] at hj3
            cases Option.some.inj hj3
          · obtain ⟨s, hs1, -⟩ := h3
            cases hs1

/-- C4 (witness): the theorem applied at a category-like row (8 cells,
one populated), at the distance-limit row of the unit tests, and at a row
with two leading empty cells. -/
theorem c4_witness :
    propagate_merged_cells_in_row
        [some "x", none, none, none, none, none, none, none] =
      [some "x", none, none, none, none, none, none, none] ∧
    (propagate_merged_cells_in_row
        [some "a", none, none, none, none, some "b"]).length = 6 ∧
    (propagate_merged_cells_in_row [none, none, some "v", none]).get? 1 =
      some none := by
  refine ⟨(c4_propagate _).1 (by decide) (by decide), ?_, ?_⟩
  · rw [(c4_propagate [some "a", none, none, none, none, some "b"]).2.1]
    rfl
  · refine (c4_propagate [none, none, some "v", none]).2.2.2 1 ?_
    intro m hm
    interval_cases m <;> rfl

/-! ## Claim C5: row rejection on missing identity fields -/

/-- C5: `convert_to_network_config_row` emits no row exactly when both
identity fields — `switch_label` and `switch_ifname` — are absent or
empty (after trimming) under the field mapping.  The function consults
nothing else: validator output plays no part in the decision. -/
theorem c5_row_rejection (row_data field_map : List (String × String)) :
    convert_to_network_config_row row_data field_map = none ↔
      (get_field row_data field_map "switch_label" = none ∧
       get_field row_data field_map "switch_ifname" = none) := by
  by_cases hc : get_field row_data field_map "switch_label" = none ∧
      get_field row_data field_map "switch_ifname" = none
  · simp [convert_to_network_config_row, hc]
  · simp only [convert_to_network_config_row, if_neg hc]
    simp [hc]

/-- C5 (witness): both directions of the equivalence at concrete rows —
an empty row is rejected, a row with only the switch interface populated
is emitted. -/
theorem c5_witness :
    convert_to_network_config_row [] [] = none ∧
    convert_to_network_config_row [("Port", "xe-0/0/1")]
      [("switch_ifname", "Port")] ≠ none := by
  constructor
  · exact (c5_row_rejection [] []).mpr ⟨rfl, rfl⟩
  · intro h
    have hb := (c5_row_rejection [("Port", "xe-0/0/1")]
      [("switch_ifname", "Port")]).mp h
    exact absurd hb.2 (by decide)

/-! ## Claim C1: across-rows (vertical) reconstruction -/

theorem updateRow_carry_length (vals : List String)
    (carry : List (Option String)) :
    (updateRow vals carry).2.length = carry.length := by
  induction vals generalizing carry with
  | nil => rfl
  | cons v vs ih =>
    cases carry with
    | nil => rfl
    | cons c cs => simp [updateRow, ih]

theorem updateRow_val (vals : List String) (carry : List (Option String))
    (j : Nat) (v : String) (hlen : vals.length ≤ carry.length)
    (hv : vals.get? j = some v) :
    (updateRow vals carry).1.get? j =
      some (if v ≠ "" then v else ((carry.get? j).bind id).getD "") := by
  induction vals generalizing carry j with
  | nil => simp at hv
  | cons v' vs ih =>
    cases carry with
    | nil => simp at hlen
    | cons c cs =>
      cases j with
      | zero =>
        rw [List.get?_cons_zero, Option.some.injEq] at hv
        subst hv
        by_cases hv' : v' = ""
        · subst hv'
          cases c with
          | some w => simp [updateRow]
          | none => simp [updateRow]
        · simp [updateRow, hv']
      | succ j =>
        rw [List.get?_cons_succ] at hv
        have hrec := ih cs j (by simpa using hlen) hv
        by_cases hv' : v' = ""
        · subst hv'
          cases c with
          | some w => simpa [updateRow] using hrec
          | none => simpa [updateRow] using hrec
        · simpa [updateRow, hv'] using hrec

theorem updateRow_carry_none (vals : List String)
    (carry : List (Option String)) (j : Nat)
    (hlen : vals.length ≤ carry.length) (hj : vals.get? j = none) :
    (updateRow vals carry).2.get? j = carry.get? j := by
  induction vals generalizing carry j with
  | nil => rfl
  | cons v' vs ih =>
    cases carry with
    | nil => simp at hlen
    | cons c cs =>
      cases j with
      | zero => simp at hj
      | succ j =>
        rw [List.get?_cons_succ] at hj
        have hrec := ih cs j (by simpa using hlen) hj
        by_cases hv' : v' = ""
        · subst hv'
          cases c with
          | some w => simpa [updateRow] using hrec
          | none => simpa [updateRow] using hrec
        · simpa [updateRow, hv'] using hrec

theorem updateRow_carry_some (vals : List String)
    (carry : List (Option String)) (j : Nat) (v : String)
    (hlen : vals.length ≤ carry.length) (hj : vals.get? j = some v) :
    (updateRow vals carry).2.get? j =
      if v ≠ "" then some (some v) else carry.get? j := by
  induction vals generalizing carry j with
  | nil => simp at hj
  | cons v' vs ih =>
    cases carry with
    | nil => simp at hlen
    | cons c cs =>
      cases j with
      | zero =>
        rw [List.get?_cons_zero, Option.some.injEq] at hj
        subst hj
        by_cases hv' : v' = ""
        · subst hv'
          cases c with
          | some w => simp [updateRow]
          | none => simp [updateRow]
        · simp [updateRow, hv']
      | succ j =>
        rw [List.get?_cons_succ] at hj
        have hrec := ih cs j (by simpa using hlen) hj
        by_cases hv' : v' = ""
        · subst hv'
          cases c with
          | some w => simpa [updateRow] using hrec
          | none => simpa [updateRow] using hrec
        · simpa [updateRow, hv'] using hrec

/-- Characterization of the row loop: the cell at row `i`, column `j` of
the output is the original value when non-empty, and otherwise the most
recent non-empty value above it in column `j` (falling back to the
incoming carry, and to the empty string when nothing was ever seen). -/
theorem vfLoop_cell (rows : List (List String))
    (carry : List (Option String))
    (h : ∀ r ∈ rows, r.length = carry.length) (i j : Nat)
    (r : List String) (v : String) (hi : rows.get? i = some r)
    (hv : r.get? j = some v) :
    ((vfLoop rows carry).get? i).bind (fun rr => rr.get? j) =
      some (if v ≠ "" then v
            else (colCarryFrom ((carry.get? j).bind id) (rows.take i) j).getD "") := by
  induction rows generalizing carry i r with
  | nil => simp at hi
  | cons r0 rest ih =>
    cases i with
    | zero =>
      have hr0 : r0 = r := by simpa using hi
      subst hr0
      have hlen : r0.length ≤ carry.length :=
        le_of_eq (h r0 (List.mem_cons_self _ _))
      show (updateRow r0 carry).1.get? j =
        some (if v ≠ "" then v
              else (colCarryFrom ((carry.get? j).bind id) [] j).getD "")
      rw [updateRow_val r0 carry j v hlen hv]
      rfl
    | succ i =>
      rw [List.get?_cons_succ] at hi
      have hlen0 : r0.length ≤ carry.length :=
        le_of_eq (h r0 (List.mem_cons_self _ _))
      have h' : ∀ rr ∈ rest, rr.length = (updateRow r0 carry).2.length := by
        intro rr hm
        rw [updateRow_carry_length]
        exact h rr (List.mem_cons_of_mem _ hm)
      have hstep : (((updateRow r0 carry).2.get? j).bind id) =
          colCarryStep ((carry.get? j).bind id) r0 j := by
        cases hr0 : r0.get? j with
        | none =>
          rw [updateRow_carry_none r0 carry j hlen0 hr0]
          simp only [colCarryStep, hr0]
        | some w =>
          rw [updateRow_carry_some r0 carry j w hlen0 hr0]
          by_cases hw : w = ""
          · subst hw
            simp only [colCarryStep, hr0, ne_eq, not_true_eq_false, if_false]
          · simp only [colCarryStep, hr0, ne_eq, hw, not_false_eq_true,
              if_true]
            rfl
      show ((vfLoop rest (updateRow r0 carry).2).get? i).bind
          (fun rr => rr.get? j) = _
      rw [ih ((updateRow r0 carry).2) h' i r hi hv]
      congr 1
      by_cases hv' : v = ""
      · simp only [hv', ne_eq, not_true_eq_false, if_false]
        rw [hstep]
        rfl
      · simp [hv']

/-- C1 (counterexample): the vertical reconstruction of
`apply_intelligent_merged_cell_detection` fills the empty `Port` cell of
the second row from the first row's port `"1"`.  A per-row physical port
column is the spec's own example of a column that is not merge-eligible,
so under the claim this cell had to stay empty. -/
theorem c1_counterexample :
    ((apply_intelligent_merged_cell_detection
        [[some "server1", some "1"], [some "server2", none]]
        ["Host Name", "Port"]).get? 1).bind (fun rr => lookupL rr "Port") =
      some "1" ∧ ("1" : String) ≠ "" := by
  constructor <;> decide

/-- C1 (amended): the across-rows reconstruction keeps one carry value
per column and fills an empty cell from the most recent non-empty value
above it in the same column for **every** column — the code contains no
merge-eligibility designation by field name or header.  Stated as the
full characterization of the cell values of the row loop inside
`apply_intelligent_merged_cell_detection`. -/
theorem c1_vertical_carry (data_rows : List (List Cell))
    (headers : List String)
    (hlen : ∀ r ∈ data_rows, r.length = headers.length)
    (i j : Nat) (r : List Cell) (c : Cell)
    (hi : data_rows.get? i = some r) (hj : r.get? j = some c) :
    apply_intelligent_merged_cell_detection data_rows headers =
      (vfLoop (data_rows.map fun row => row.map cellToString)
        (headers.map fun _ => none)).map (rowToAssoc headers) ∧
    ((vfLoop (data_rows.map fun row => row.map cellToString)
        (headers.map fun _ => none)).get? i).bind (fun rr => rr.get? j) =
      some (if cellToString c ≠ "" then cellToString c
            else (colCarryFrom none
              ((data_rows.map fun row => row.map cellToString).take i)
              j).getD "") := by
  refine ⟨rfl, ?_⟩
  have hinit : (((headers.map fun _ => (none : Option String)).get? j).bind id)
      = none := by
    rw [List.get?_map]
    cases headers.get? j <;> rfl
  have hcell := vfLoop_cell (data_rows.map fun row => row.map cellToString)
    (headers.map fun _ => none)
    (by
      intro rr hm
      rcases List.mem_map.mp hm with ⟨r', hr', rfl⟩
      rw [List.length_map, List.length_map]
      exact hlen r' hr')
    i j (r.map cellToString) (cellToString c)
    (by rw [List.get?_map, hi]; rfl)
    (by rw [List.get?_map, hj]; rfl)
  rw [hcell, hinit]

/-- C1 (witness): the amended characterization applied to the
counterexample grid — the empty second-row `Port` cell receives `"1"`
from the row above. -/
theorem c1_witness :
    ((vfLoop ([[some "server1", some "1"], [some "server2", none]].map
        fun row => row.map cellToString)
        (["Host Name", "Port"].map fun _ => none)).get? 1).bind
      (fun rr => rr.get? 1) = some "1" := by
  have h := (c1_vertical_carry
    [[some "server1", some "1"], [some "server2", none]]
    ["Host Name", "Port"] (by decide) 1 1 [some "server2", none] none
    rfl rfl).2
  rw [h]
  decide

/-! ## Claim C9: transformation failures are non-fatal -/

/-- C9: `apply_field_transformations` always succeeds, producing a value
for every input field; a rule name absent from `transformation_rules`
leaves the field's value unchanged, as does a rule that fails; an unknown
function name and an unknown pipeline step type are failures. -/
theorem c9_transformation_failures :
    (∀ (field_data : List (String × String)) (m : EnhancedConversionMap),
      apply_field_transformations field_data m =
        .ok (field_data.map fun fv =>
          (fv.1, applyRulesForField m field_data fv.1 fv.2))) ∧
    (∀ (m : EnhancedConversionMap) (field_data : List (String × String))
        (cur tname : String),
      lookupL m.transformation_rules tname = none →
      applyOneRule m field_data cur tname = cur) ∧
    (∀ (m : EnhancedConversionMap) (field_data : List (String × String))
        (cur tname : String) (rule : TransformationRule) (e : String),
      lookupL m.transformation_rules tname = some rule →
      apply_transformation rule cur (some field_data) = .error e →
      applyOneRule m field_data cur tname = cur) ∧
    (∀ (name cur : String) (ctx : Option (List (String × String))),
      engineFunctions name = none →
      apply_transformation ⟨none, .Function name⟩ cur ctx =
        .error ("Unknown transformation function: " ++ name)) ∧
    (∀ (st : String) (cur : String)
        (params : List (String × JValue))
        (ctx : Option (List (String × String))),
      st ≠ "function" → st ≠ "template" → st ≠ "value_map" →
      apply_transformation_step st cur params ctx =
        .error ("Unknown transformation step type: " ++ st)) := by
  refine ⟨fun _ _ => rfl, ?_, ?_, ?_, ?_⟩
  · intro m field_data cur tname h
    simp [applyOneRule, h]
  · intro m field_data cur tname rule e h1 h2
    simp [applyOneRule, h1, h2]
  · intro name cur ctx h
    simp [apply_transformation, h]
  · intro st cur params ctx h1 h2 h3
    simp [apply_transformation_step, h1, h2, h3]

/-- C9 (witness): the theorem applied at concrete inputs — an empty map
leaves a field map intact under an `ok`, a missing rule and a failing
rule are per-step identities, an unknown function is an error. -/
theorem c9_witness :
    apply_field_transformations [("a", "1")] ⟨[], []⟩ = .ok [("a", "1")] ∧
    applyOneRule ⟨[], []⟩ [] "v" "missing" = "v" ∧
    applyOneRule ⟨[], [("r", ⟨none, .Function "bogus"⟩)]⟩ [] "v" "r" = "v" ∧
    apply_transformation ⟨none, .Function "bogus"⟩ "v" none =
      .error ("Unknown transformation function: " ++ "bogus") := by
  refine ⟨?_, ?_, ?_, ?_⟩
  · rw [c9_transformation_failures.1 [("a", "1")] ⟨[], []⟩]
    rfl
  · exact c9_transformation_failures.2.1 ⟨[], []⟩ [] "v" "missing" rfl
  · exact c9_transformation_failures.2.2.1 ⟨[], [("r", ⟨none, .Function "bogus"⟩)]⟩
      [] "v" "r" ⟨none, .Function "bogus"⟩
      ("Unknown transformation function: " ++ "bogus") rfl rfl
  · exact c9_transformation_failures.2.2.2.1 "bogus" "v" none rfl

/-! ## Claim C10: validator severities and the overall validity flag -/

theorem validateAcc_errors_summary (re : String → String → Option Bool)
    (m : EnhancedConversionMap) (data : List (String × String)) :
    (validateAcc re m data).1 = [] ↔
      ∀ p ∈ (validateAcc re m data).2.2, p.2.error_count = 0 := by
  induction data with
  | nil => simp [validateAcc]
  | cons fv rest ih =>
    cases hfd : lookupL m.field_definitions fv.1 with
    | some fd =>
      simp only [validateAcc, hfd, List.append_eq_nil, List.mem_cons]
      constructor
      · rintro ⟨he, ht⟩ p hp
        rcases hp with rfl | hp
        · simp [he]
        · exact (ih.mp ht) p hp
      · intro hall
        have hh := hall _ (Or.inl rfl)
        simp only at hh
        refine ⟨List.length_eq_zero.mp hh, ih.mpr ?_⟩
        intro p hp
        exact hall p (Or.inr hp)
    | none =>
      simp only [validateAcc, hfd, List.mem_cons]
      constructor
      · rintro he p (rfl | hp)
        · rfl
        · exact (ih.mp he) p hp
      · intro hall
        exact ih.mpr fun p hp => hall p (Or.inr hp)

/-- C10: the validator's `is_valid` is true exactly when zero errors were
recorded across all fields; `allowed_values` never influences the error
list (a mismatch yields exactly one warning); required-but-empty, a
length outside `[min_length, max_length]`, and a pattern mismatch each
yield an error. -/
theorem c10_validation (re : String → String → Option Bool)
    (field_data : List (String × String)) (m : EnhancedConversionMap)
    (fd : FieldDefinition) (fname v : String) :
    ((validate_field_values re field_data m).is_valid = true ↔
      ∀ p ∈ (validate_field_values re field_data m).field_summary,
        p.2.error_count = 0) ∧
    (∀ av : Option (List String), checkFieldErrors re
        { fd with validation_rules :=
            { fd.validation_rules with allowed_values := av } } fname v =
      checkFieldErrors re
        { fd with validation_rules :=
            { fd.validation_rules with allowed_values := none } } fname v) ∧
    (∀ av : List String, fd.validation_rules.allowed_values = some av →
      av.contains v = false →
      checkFieldWarnings fd fname v =
        [⟨fname, "Value '" ++ v ++ "' not in allowed values: " ++
          debugListStr av, .Warning⟩]) ∧
    (fd.is_required = true → strTrim v = "" →
      checkFieldErrors re fd fname v ≠ []) ∧
    (∀ n, fd.validation_rules.min_length = some n → v.data.length < n →
      checkFieldErrors re fd fname v ≠ []) ∧
    (∀ n, fd.validation_rules.max_length = some n → n < v.data.length →
      checkFieldErrors re fd fname v ≠ []) ∧
    (∀ p, fd.validation_rules.pattern = some p → re p v = some false →
      checkFieldErrors re fd fname v ≠ []) := by
  refine ⟨?_, ?_, ?_, ?_, ?_, ?_, ?_⟩
  · show ((validateAcc re m field_data).1.isEmpty = true ↔ _)
    rw [List.isEmpty_iff]
    exact validateAcc_errors_summary re m field_data
  · intro av
    rfl
  · intro av h1 h2
    have h3 : v ∉ av := by
      intro hm
      have hc : av.contains v = true := List.elem_eq_true_of_mem hm
      rw [h2] at hc
      cases hc
    simp [checkFieldWarnings, h1, h3]
  · intro h1 h2
    refine List.ne_nil_of_mem
      (a := ⟨fname, "Required field cannot be empty", .Error⟩) ?_
    simp [checkFieldErrors, h1, h2]
  · intro n h1 h2
    have h2' : v.length < n := h2
    refine List.ne_nil_of_mem
      (a := ⟨fname, "Value too short, minimum length is " ++ toString n,
        .Error⟩) ?_
    simp [checkFieldErrors, h1, h2']
  · intro n h1 h2
    have h2' : n < v.length := h2
    refine List.ne_nil_of_mem
      (a := ⟨fname, "Value too long, maximum length is " ++ toString n,
        .Error⟩) ?_
    simp [checkFieldErrors, h1, h2']
  · intro p h1 h2
    refine List.ne_nil_of_mem
      (a := ⟨fname, "Value does not match required pattern: " ++ p,
        .Error⟩) ?_
    simp [checkFieldErrors, h1, h2]

/-- C10 (witness): the theorem applied at concrete inputs — a required
field left empty flips `is_valid` to false, a field without a definition
validates, required-but-empty yields an error, and an allowed-values
mismatch yields exactly the advisory warning. -/
theorem c10_witness :
    (validate_field_values (fun _ _ => some true) [("f", "")]
      ⟨[("f", ⟨"F", true, false, [], ⟨none, none, none, none⟩, none⟩)],
        []⟩).is_valid = false ∧
    (validate_field_values (fun _ _ => some true) [("g", "x")]
      ⟨[("f", ⟨"F", true, false, [], ⟨none, none, none, none⟩, none⟩)],
        []⟩).is_valid = true ∧
    checkFieldErrors (fun _ _ => some true)
      ⟨"F", true, false, [], ⟨none, none, none, none⟩, none⟩ "f" "" ≠ [] ∧
    checkFieldWarnings
      ⟨"F", false, false, [], ⟨none, none, none, some ["a"]⟩, none⟩ "f" "b" =
      [⟨"f", "Value '" ++ "b" ++ "' not in allowed values: " ++
        debugListStr ["a"], .Warning⟩] := by
  refine ⟨?_, ?_, ?_, ?_⟩
  · have h := (c10_validation (fun _ _ => some true) [("f", "")]
      ⟨[("f", ⟨"F", true, false, [], ⟨none, none, none, none⟩, none⟩)], []⟩
      ⟨"F", true, false, [], ⟨none, none, none, none⟩, none⟩ "f" "").1
    cases hv : (validate_field_values (fun _ _ => some true) [("f", "")]
      ⟨[("f", ⟨"F", true, false, [], ⟨none, none, none, none⟩, none⟩)],
        []⟩).is_valid with
    | false => rfl
    | true =>
      exfalso
      have hall := h.mp hv
      revert hall
      decide
  · exact ((c10_validation (fun _ _ => some true) [("g", "x")]
      ⟨[("f", ⟨"F", true, false, [], ⟨none, none, none, none⟩, none⟩)], []⟩
      ⟨"F", true, false, [], ⟨none, none, none, none⟩, none⟩ "g" "x").1).mpr
      (by decide)
  · exact (c10_validation (fun _ _ => some true) [] ⟨[], []⟩
      ⟨"F", true, false, [], ⟨none, none, none, none⟩, none⟩ "f" "").2.2.2.1
      rfl rfl
  · exact (c10_validation (fun _ _ => some true) [] ⟨[], []⟩
      ⟨"F", false, false, [], ⟨none, none, none, some ["a"]⟩, none⟩ "f"
      "b").2.2.1 ["a"] rfl (by decide)

/-! ## Claim C2: resolution factors through header normalization -/

theorem lookup_mapSelf (fs : List String) (h k : String) :
    lookupL (fs.map fun f => (f, h)) k = if k ∈ fs then some h else none := by
  induction fs with
  | nil => simp [lookupL]
  | cons f fs ih =>
    by_cases hf : f = k
    · subst hf
      simp [lookupL, ih]
    · simp only [List.map_cons, lookupL, if_neg hf, ih, List.mem_cons]
      by_cases hk : k ∈ fs
      · simp [hk]
      · simp [hk, Ne.symm hf]

theorem map_replace_self (fs : List String) (h k : String) :
    (fs.map fun f => (f, h)).map
        (fun p => if p.1 = k then (k, h) else p) =
      fs.map fun f => (f, h) := by
  induction fs with
  | nil => rfl
  | cons f fs ih =>
    simp only [List.map_cons, ih]
    by_cases hf : f = k
    · subst hf
      simp
    · simp [hf]

theorem upsert_mapSelf (fs : List String) (h k : String) :
    upsertL (fs.map fun f => (f, h)) k h =
      (upsertFields fs k).map fun f => (f, h) := by
  rw [upsertL, lookup_mapSelf, upsertFields]
  by_cases hk : k ∈ fs
  · simp only [hk, if_true, Option.isSome_some, if_pos rfl, map_replace_self]
  · simp [hk]

theorem hdrMapped_mapSelf (fs : List String) (h : String) :
    hdrMapped (fs.map fun f => (f, h)) h = !fs.isEmpty := by
  cases fs with
  | nil => rfl
  | cons f fs => simp [hdrMapped]

theorem varScan_mapSelf (fname h : String) (vs fs : List String) :
    varScanVariations fname h vs (fs.map fun f => (f, h)) =
      (((varScanFieldsSingle fname (normalize_header h) vs fs).1).map
          fun f => (f, h),
        (varScanFieldsSingle fname (normalize_header h) vs fs).2) := by
  induction vs generalizing fs with
  | nil => rfl
  | cons v vs ih =>
    by_cases hx : normalize_header h = strLower v
    · simp only [varScanVariations, varScanFieldsSingle, if_pos hx,
        upsert_mapSelf]
    · simp only [varScanVariations, varScanFieldsSingle, if_neg hx]
      by_cases hmem : fname ∈ fs
      · have hl : lookupL (fs.map fun f => (f, h)) fname = some h := by
          rw [lookup_mapSelf, if_pos hmem]
        have hcond : ¬(fname ∉ fs ∧ (strContains (normalize_header h)
            (strLower v) = true ∨
            strContains (strLower v) (normalize_header h) = true)) := by
          intro hctr
          exact hctr.1 hmem
        simp only [hl, if_neg hcond]
        simpa using ih fs
      · have hl : lookupL (fs.map fun f => (f, h)) fname = none := by
          rw [lookup_mapSelf, if_neg hmem]
        cases hcont : (strContains (normalize_header h) (strLower v) ||
            strContains (strLower v) (normalize_header h)) with
        | true =>
          have hcond : fname ∉ fs ∧ (strContains (normalize_header h)
              (strLower v) = true ∨
              strContains (strLower v) (normalize_header h) = true) :=
            ⟨hmem, by simpa [Bool.or_eq_true] using hcont⟩
          simp only [hl, hcont, if_pos hcond]
          have := ih (fs ++ [fname])
          simpa using this
        | false =>
          have hcond : ¬(fname ∉ fs ∧ (strContains (normalize_header h)
              (strLower v) = true ∨
              strContains (strLower v) (normalize_header h) = true)) := by
            rintro ⟨-, hor⟩
            rcases hor with ho | ho <;> simp [ho] at hcont
          simp only [hl, hcont, if_neg hcond]
          simpa using ih fs

theorem varScanHeaders_single (fname h : String) (vs : List String)
    (map : List (String × String)) :
    varScanHeaders fname vs [h] map = (varScanVariations fname h vs map).1 := by
  rw [varScanHeaders]
  cases hmr : (varScanVariations fname h vs map).2 with
  | true => simp [hmr]
  | false => simp [hmr, varScanHeaders]

theorem runFallback_mapSelf (h : String) (table : List (String × List String))
    (fs : List String) :
    runFallback table [h] (fs.map fun f => (f, h)) =
      (fallbackFieldsSingle table (normalize_header h) fs).map
        fun f => (f, h) := by
  induction table generalizing fs with
  | nil => rfl
  | cons ft rest ih =>
    show runFallback rest [h]
        (varScanHeaders ft.1 (sortStrsDesc ft.2) (sortStrsDesc [h])
          (fs.map fun f => (f, h))) = _
    rw [show sortStrsDesc [h] = [h] from rfl, varScanHeaders_single,
      varScan_mapSelf]
    exact ih ((varScanFieldsSingle ft.1 (normalize_header h)
      (sortStrsDesc ft.2) fs).1)

/-- `create_conversion_field_mapping` on a single header assigns exactly
the fields computed from the header's normalization, each bound to the
header itself. -/
theorem ccfm_single (mappings : List (String × String)) (h : String) :
    create_conversion_field_mapping [h] mappings =
      (ccfmFieldsSingle mappings (normalize_header h)).map
        fun f => (f, h) := by
  rw [create_conversion_field_mapping, ccfmFieldsSingle]
  cases hf1 : (sortMappingsDesc mappings).find? fun em =>
      normalize_header em.1 == normalize_header h with
  | some ef =>
    have hp1 : phase1 [h] (sortMappingsDesc mappings) = [(ef.2, h)] := by
      simp [phase1, phase1Step, hf1, lookupL]
    have hp2 : phase2 [h] (sortMappingsDesc mappings) [(ef.2, h)] =
        [(ef.2, h)] := by
      simp [phase2, phase2Step, hdrMapped]
    rw [hp1, hp2]
    simp [hf1]
  | none =>
    have hp1 : phase1 [h] (sortMappingsDesc mappings) = [] := by
      simp [phase1, phase1Step, hf1]
    rw [hp1]
    cases hf2 : (sortMappingsDesc mappings).find? fun em =>
        strContains (normalize_header h) (normalize_header em.1) ||
        strContains (normalize_header em.1) (normalize_header h) with
    | some ef =>
      have hp2 : phase2 [h] (sortMappingsDesc mappings) [] = [(ef.2, h)] := by
        simp [phase2, phase2Step, hdrMapped, hf2, lookupL]
      rw [hp2]
      simp [hf1, hf2]
    | none =>
      have hp2 : phase2 [h] (sortMappingsDesc mappings) [] = [] := by
        simp [phase2, phase2Step, hdrMapped, hf2]
      rw [hp2]
      simp only [hf1, hf2, List.isEmpty_nil, if_true, if_pos rfl]
      have := runFallback_mapSelf h default_field_variations []
      simpa using this

/-- C2 (counterexample): the enhanced per-header resolver
`find_best_field_match` does not normalize CR/LF and whitespace — it only
case-folds — so `"Host Name"` and `"Host\nName"`, whose normalizations
are equal, resolve differently against the same map: the first to
`server_label` with confidence 1.0, the second to nothing. -/
theorem c2_counterexample :
    normalize_header "Host Name" = normalize_header "Host\nName" ∧
    find_best_field_match (fun _ _ => false) "Host Name"
      ⟨[("server_label",
        ⟨"Host Name", false, false, [⟨"Host Name", .Exact, 100, false⟩],
          ⟨none, none, none, none⟩, none⟩)], []⟩ = some ("server_label", 1) ∧
    find_best_field_match (fun _ _ => false) "Host\nName"
      ⟨[("server_label",
        ⟨"Host Name", false, false, [⟨"Host Name", .Exact, 100, false⟩],
          ⟨none, none, none, none⟩, none⟩)], []⟩ = none := by
  refine ⟨by decide, ?_, ?_⟩ <;> decide

/-- C2 (amended): the claimed property holds of the simple conversion-map
resolver `create_conversion_field_mapping`: two headers with equal
normalizations are assigned exactly the same canonical fields; the
enhanced resolver only case-folds, so there it holds only up to case
(counterexample above). -/
theorem c2_normalized_resolution (mappings : List (String × String))
    (h1 h2 : String) (hn : normalize_header h1 = normalize_header h2) :
    (create_conversion_field_mapping [h1] mappings).map Prod.fst =
      (create_conversion_field_mapping [h2] mappings).map Prod.fst := by
  rw [ccfm_single, ccfm_single, hn]
  simp

/-- C2 (witness): the amended theorem applied to `"Host Name"` and
`"Host\nName"` over a one-entry conversion map. -/
theorem c2_witness :
    (create_conversion_field_mapping ["Host Name"]
        [("Host Name", "server_label")]).map Prod.fst =
      (create_conversion_field_mapping ["Host\nName"]
        [("Host Name", "server_label")]).map Prod.fst :=
  c2_normalized_resolution [("Host Name", "server_label")] "Host Name"
    "Host\nName" (by decide)

/-! ## Claim C3: exact matches outrank and are locked in a first pass -/

theorem mappingConfidence_le_one (re : String → String → Bool) (h : String)
    (xm : XlsxMapping) : mappingConfidence re h xm ≤ 1 := by
  obtain ⟨pat, mt, prio, cs⟩ := xm
  cases mt with
  | Exact =>
    simp only [mappingConfidence]
    split_ifs <;> norm_num
  | Partial =>
    simp only [mappingConfidence]
    split_ifs <;> norm_num
  | Regex =>
    simp only [mappingConfidence]
    split_ifs <;> norm_num
  | Fuzzy =>
    simp only [mappingConfidence, calculate_fuzzy_confidence]
    split_ifs with hm
    · exact le_refl 1
    · have hnn : (0 : ℚ) ≤ (levenshtein pat.data h.data : ℚ) /
          ((max pat.data.length h.data.length : Nat) : ℚ) := by
        apply div_nonneg <;> positivity
      linarith

theorem innerFold_ge (re : String → String → Bool) (h fname : String)
    (xms : List XlsxMapping) (b : Option String × ℚ) :
    b.2 ≤ (xms.foldl (fun b xm =>
      let confidence := mappingConfidence re h xm
      if b.2 < confidence then (some fname, confidence) else b) b).2 := by
  induction xms generalizing b with
  | nil => exact le_refl _
  | cons xm xms ih =>
    rw [List.foldl_cons]
    refine le_trans ?_ (ih _)
    by_cases hlt : b.2 < mappingConfidence re h xm
    · simp only [hlt, if_true]
      exact le_of_lt hlt
    · simp only [hlt, if_false]
      exact le_refl _

theorem innerFold_le_one (re : String → String → Bool) (h fname : String)
    (xms : List XlsxMapping) (b : Option String × ℚ) (hb : b.2 ≤ 1) :
    (xms.foldl (fun b xm =>
      let confidence := mappingConfidence re h xm
      if b.2 < confidence then (some fname, confidence) else b) b).2 ≤ 1 := by
  induction xms generalizing b with
  | nil => exact hb
  | cons xm xms ih =>
    rw [List.foldl_cons]
    refine ih _ ?_
    by_cases hlt : b.2 < mappingConfidence re h xm
    · simp only [hlt, if_true]
      exact mappingConfidence_le_one re h xm
    · simp only [hlt, if_false]
      exact hb

theorem innerFold_none (re : String → String → Bool) (h fname : String)
    (xms : List XlsxMapping) (b : Option String × ℚ)
    (hb : b.1 = none → b.2 = 0) :
    ((xms.foldl (fun b xm =>
      let confidence := mappingConfidence re h xm
      if b.2 < confidence then (some fname, confidence) else b) b).1 = none →
     (xms.foldl (fun b xm =>
      let confidence := mappingConfidence re h xm
      if b.2 < confidence then (some fname, confidence) else b) b).2 = 0) := by
  induction xms generalizing b with
  | nil => exact hb
  | cons xm xms ih =>
    rw [List.foldl_cons]
    refine ih _ ?_
    by_cases hlt : b.2 < mappingConfidence re h xm
    · simp only [hlt, if_true]
      intro hcon
      cases hcon
    · simp only [hlt, if_false]
      exact hb

theorem innerFold_achieve (re : String → String → Bool) (h fname : String)
    (xms : List XlsxMapping) (b : Option String × ℚ) (xm : XlsxMapping)
    (hmem : xm ∈ xms) :
    mappingConfidence re h xm ≤ (xms.foldl (fun b xm =>
      let confidence := mappingConfidence re h xm
      if b.2 < confidence then (some fname, confidence) else b) b).2 := by
  induction xms generalizing b with
  | nil => cases hmem
  | cons xm' xms ih =>
    rw [List.foldl_cons]
    rcases List.mem_cons.mp hmem with rfl | hmem'
    · refine le_trans ?_ (innerFold_ge re h fname xms _)
      by_cases hlt : b.2 < mappingConfidence re h xm
      · simp [hlt]
      · simp only [hlt, if_false]
        exact le_of_not_lt hlt
    · exact ih _ hmem'

theorem fbfmFold_ge (re : String → String → Bool) (h : String)
    (fields : List (String × FieldDefinition)) (b : Option String × ℚ) :
    b.2 ≤ (fbfmFold re h fields b).2 := by
  induction fields generalizing b with
  | nil => exact le_refl _
  | cons fd fields ih =>
    rw [fbfmFold, List.foldl_cons]
    exact le_trans (innerFold_ge re h fd.1 fd.2.xlsx_mappings b) (ih _)

theorem fbfmFold_le_one (re : String → String → Bool) (h : String)
    (fields : List (String × FieldDefinition)) (b : Option String × ℚ)
    (hb : b.2 ≤ 1) : (fbfmFold re h fields b).2 ≤ 1 := by
  induction fields generalizing b with
  | nil => exact hb
  | cons fd fields ih =>
    rw [fbfmFold, List.foldl_cons]
    exact ih _ (innerFold_le_one re h fd.1 fd.2.xlsx_mappings b hb)

theorem fbfmFold_none (re : String → String → Bool) (h : String)
    (fields : List (String × FieldDefinition)) (b : Option String × ℚ)
    (hb : b.1 = none → b.2 = 0) :
    ((fbfmFold re h fields b).1 = none → (fbfmFold re h fields b).2 = 0) := by
  induction fields generalizing b with
  | nil => exact hb
  | cons fd fields ih =>
    rw [fbfmFold, List.foldl_cons]
    exact ih _ (innerFold_none re h fd.1 fd.2.xlsx_mappings b hb)

theorem fbfmFold_achieve (re : String → String → Bool) (h : String)
    (fields : List (String × FieldDefinition)) (b : Option String × ℚ)
    (p : String × FieldDefinition) (hp : p ∈ fields) (xm : XlsxMapping)
    (hxm : xm ∈ p.2.xlsx_mappings) :
    mappingConfidence re h xm ≤ (fbfmFold re h fields b).2 := by
  induction fields generalizing b with
  | nil => cases hp
  | cons fd fields ih =>
    rw [fbfmFold, List.foldl_cons]
    rcases List.mem_cons.mp hp with rfl | hp'
    · exact le_trans (innerFold_achieve re h p.1 p.2.xlsx_mappings b xm hxm)
        (fbfmFold_ge re h fields _)
    · exact ih _ hp'

theorem lookup_append_some {α : Type} {m : List (String × α)}
    {l : List (String × α)} {f : String} {h : α}
    (hm : lookupL m f = some h) : lookupL (m ++ l) f = some h := by
  induction m with
  | nil => cases hm
  | cons kv t ih =>
    rw [lookupL] at hm
    rw [List.cons_append, lookupL]
    by_cases hk : kv.1 = f
    · rw [if_pos hk] at hm ⊢
      exact hm
    · rw [if_neg hk] at hm ⊢
      exact ih hm

theorem lookup_append_none {α : Type} {m l : List (String × α)} {f : String}
    (hm : lookupL (m ++ l) f = none) : lookupL m f = none := by
  induction m with
  | nil => rfl
  | cons kv t ih =>
    rw [List.cons_append, lookupL] at hm
    rw [lookupL]
    by_cases hk : kv.1 = f
    · rw [if_pos hk] at hm
      cases hm
    · rw [if_neg hk] at hm ⊢
      exact ih hm

theorem lookup_append_single {α : Type} {m : List (String × α)}
    {a : String} {b : α} {f : String} {h : α}
    (hm : lookupL (m ++ [(a, b)]) f = some h) :
    lookupL m f = some h ∨ (lookupL m f = none ∧ f = a ∧ h = b) := by
  induction m with
  | nil =>
    rw [List.nil_append, lookupL] at hm
    by_cases ha : a = f
    · rw [if_pos ha] at hm
      exact Or.inr ⟨rfl, ha.symm, (Option.some.inj hm).symm⟩
    · rw [if_neg ha] at hm
      cases hm
  | cons kv t ih =>
    rw [List.cons_append, lookupL] at hm
    rw [lookupL]
    by_cases hk : kv.1 = f
    · rw [if_pos hk] at hm ⊢
      exact Or.inl hm
    · rw [if_neg hk] at hm ⊢
      exact ih hm

theorem hdrMapped_append_false {m l : List (String × String)} {x : String}
    (hm : hdrMapped (m ++ l) x = false) : hdrMapped m x = false := by
  rw [hdrMapped, List.any_append, Bool.or_eq_false_iff] at hm
  exact hm.1

/-- A phase-2 step either leaves the map alone or appends one binding for
an unclaimed field and an unmapped header. -/
theorem phase2Step_shape (sorted m : List (String × String)) (hdr : String) :
    phase2Step sorted m hdr = m ∨
    ∃ f', phase2Step sorted m hdr = m ++ [(f', hdr)] ∧
      lookupL m f' = none ∧ hdrMapped m hdr = false := by
  rw [phase2Step]
  cases hs : hdrMapped m hdr with
  | true => simp
  | false =>
    simp only [Bool.false_eq_true, if_false]
    cases hf : sorted.find? fun em =>
        strContains (normalize_header hdr) (normalize_header em.1) ||
        strContains (normalize_header em.1) (normalize_header hdr) with
    | none => exact Or.inl rfl
    | some ef =>
      by_cases hl : lookupL m ef.2 = none
      · refine Or.inr ⟨ef.2, ?_, hl, by trivial⟩
        show (if lookupL m ef.2 = none then m ++ [(ef.2, hdr)] else m) =
          m ++ [(ef.2, hdr)]
        rw [if_pos hl]
      · refine Or.inl ?_
        show (if lookupL m ef.2 = none then m ++ [(ef.2, hdr)] else m) = m
        rw [if_neg hl]

theorem phase2Step_pres {sorted m : List (String × String)} {hdr f h : String}
    (hm : lookupL m f = some h) :
    lookupL (phase2Step sorted m hdr) f = some h := by
  rcases phase2Step_shape sorted m hdr with he | ⟨f', he, -, -⟩
  · rw [he]
    exact hm
  · rw [he]
    exact lookup_append_some hm

theorem phase2_pres {sorted : List (String × String)}
    (headers : List String) {m : List (String × String)} {f h : String}
    (hm : lookupL m f = some h) :
    lookupL (phase2 headers sorted m) f = some h := by
  induction headers generalizing m with
  | nil => exact hm
  | cons hdr hs ih => exact ih (phase2Step_pres hm)

/-- Phase 2 only adds bindings for fields and headers unclaimed when it
started. -/
theorem phase2_assign {sorted : List (String × String)}
    (headers : List String) {m : List (String × String)} {f h' : String}
    (hm : lookupL (phase2 headers sorted m) f = some h') :
    lookupL m f = some h' ∨
      (lookupL m f = none ∧ hdrMapped m h' = false) := by
  induction headers generalizing m with
  | nil => exact Or.inl hm
  | cons hdr hs ih =>
    rcases ih (m := phase2Step sorted m hdr) hm with h1 | ⟨h1, h2⟩
    · rcases phase2Step_shape sorted m hdr with he | ⟨f', he, hf', hh⟩
      · rw [he] at h1
        exact Or.inl h1
      · rw [he] at h1
        rcases lookup_append_single h1 with hx | ⟨hx1, -, rfl⟩
        · exact Or.inl hx
        · exact Or.inr ⟨hx1, hh⟩
    · rcases phase2Step_shape sorted m hdr with he | ⟨f', he, hf', hh⟩
      · rw [he] at h1 h2
        exact Or.inr ⟨h1, h2⟩
      · rw [he] at h1 h2
        exact Or.inr ⟨lookup_append_none h1, hdrMapped_append_false h2⟩

/-- C3: an exact match always yields the winning confidence 1.0 in
`find_best_field_match` (regex caps at 0.9, partial at 0.8, everything at
1.0); and in `create_conversion_field_mapping` a field claimed by the
exact-match phase 1 keeps its header in the final mapping, while phase 2
assigns only fields and headers not already claimed. -/
theorem c3_two_phase_resolution :
    (∀ (re : String → String → Bool) (h : String)
        (m : EnhancedConversionMap),
      (∃ p ∈ m.field_definitions, ∃ xm ∈ p.2.xlsx_mappings,
        xm.mapping_type = .Exact ∧
        (if xm.case_sensitive then xm.pattern = h
         else strLower xm.pattern = strLower h)) →
      ∃ f, find_best_field_match re h m = some (f, 1)) ∧
    (∀ (re : String → String → Bool) (h : String) (xm : XlsxMapping),
      mappingConfidence re h xm ≤ 1) ∧
    (∀ (re : String → String → Bool) (h : String) (xm : XlsxMapping),
      xm.mapping_type = .Regex → mappingConfidence re h xm ≤ 9 / 10) ∧
    (∀ (re : String → String → Bool) (h : String) (xm : XlsxMapping),
      xm.mapping_type = .Partial → mappingConfidence re h xm ≤ 8 / 10) ∧
    (∀ (headers : List String) (mappings : List (String × String))
        (f h : String),
      lookupL (phase1 headers (sortMappingsDesc mappings)) f = some h →
      lookupL (create_conversion_field_mapping headers mappings) f = some h) ∧
    (∀ (headers : List String) (sorted m : List (String × String))
        (f h' : String),
      lookupL (phase2 headers sorted m) f = some h' →
      lookupL m f = some h' ∨
        (lookupL m f = none ∧ hdrMapped m h' = false)) := by
  refine ⟨?_, mappingConfidence_le_one, ?_, ?_, ?_, ?_⟩
  · intro re h m hex
    obtain ⟨p, hp, xm, hxm, hexact, hpat⟩ := hex
    have hconf : mappingConfidence re h xm = 1 := by
      obtain ⟨pat, mt, prio, cs⟩ := xm
      cases mt with
      | Exact =>
        cases cs with
        | true =>
          rw [if_pos rfl] at hpat
          simp [mappingConfidence, show pat = h from hpat]
        | false =>
          rw [if_neg (show ¬(false = true) by decide)] at hpat
          simp [mappingConfidence, show strLower pat = strLower h from hpat]
      | Partial => cases hexact
      | Regex => cases hexact
      | Fuzzy => cases hexact
    have hge : (1 : ℚ) ≤ (fbfmFold re h m.field_definitions (none, 0)).2 := by
      rw [← hconf]
      exact fbfmFold_achieve re h m.field_definitions (none, 0) p hp xm hxm
    have hle : (fbfmFold re h m.field_definitions (none, 0)).2 ≤ 1 :=
      fbfmFold_le_one re h m.field_definitions (none, 0) (by norm_num)
    have heq : (fbfmFold re h m.field_definitions (none, 0)).2 = 1 :=
      le_antisymm hle hge
    have hnone := fbfmFold_none re h m.field_definitions (none, 0)
      (fun _ => rfl)
    cases hb : (fbfmFold re h m.field_definitions (none, 0)).1 with
    | none =>
      rw [hnone hb] at heq
      norm_num at heq
    | some f =>
      refine ⟨f, ?_⟩
      rw [find_best_field_match, hb, heq]
      rfl
  · intro re h xm hr
    obtain ⟨pat, mt, prio, cs⟩ := xm
    cases mt with
    | Regex =>
      simp only [mappingConfidence]
      split_ifs <;> norm_num
    | Exact => cases hr
    | Partial => cases hr
    | Fuzzy => cases hr
  · intro re h xm hr
    obtain ⟨pat, mt, prio, cs⟩ := xm
    cases mt with
    | Partial =>
      simp only [mappingConfidence]
      split_ifs <;> norm_num
    | Exact => cases hr
    | Regex => cases hr
    | Fuzzy => cases hr
  · intro headers mappings f h hm
    rw [create_conversion_field_mapping]
    have hm2 : lookupL (phase2 headers (sortMappingsDesc mappings)
        (phase1 headers (sortMappingsDesc mappings))) f = some h :=
      phase2_pres headers hm
    have hne : phase2 headers (sortMappingsDesc mappings)
        (phase1 headers (sortMappingsDesc mappings)) ≠ [] := by
      intro he
      rw [he] at hm2
      cases hm2
    rw [if_neg hne]
    exact hm2
  · intro headers sorted m f h' hm
    exact phase2_assign headers hm

/-- C3 (witness): the theorem applied at concrete inputs — an exact match
wins with confidence 1.0, a phase-1 claim survives to the final mapping,
the regex/partial tiers stay below 1.0, and a phase-2 assignment targets
an unclaimed field and header. -/
theorem c3_witness :
    (∃ f, find_best_field_match (fun _ _ => false) "Host Name"
        ⟨[("server_label",
          ⟨"Host Name", false, false, [⟨"Host Name", .Exact, 100, false⟩],
            ⟨none, none, none, none⟩, none⟩)], []⟩ = some (f, 1)) ∧
    lookupL (create_conversion_field_mapping ["Port"]
        [("Port", "switch_ifname")]) "switch_ifname" = some "Port" ∧
    mappingConfidence (fun _ _ => true) "x" ⟨"p", .Regex, 1, false⟩ ≤ 9 / 10 ∧
    mappingConfidence (fun _ _ => true) "xp" ⟨"p", .Partial, 1, false⟩ ≤ 8 / 10 ∧
    (lookupL ([] : List (String × String)) "switch_ifname" = some "Port" ∨
      (lookupL ([] : List (String × String)) "switch_ifname" = none ∧
        hdrMapped [] "Port" = false)) := by
  refine ⟨?_, ?_, ?_, ?_, ?_⟩
  · exact c3_two_phase_resolution.1 (fun _ _ => false) "Host Name" _
      ⟨("server_label", ⟨"Host Name", false, false,
          [⟨"Host Name", .Exact, 100, false⟩], ⟨none, none, none, none⟩,
          none⟩), List.Mem.head _,
        ⟨"Host Name", .Exact, 100, false⟩, List.Mem.head _, rfl, by decide⟩
  · exact c3_two_phase_resolution.2.2.2.2.1 ["Port"]
      [("Port", "switch_ifname")] "switch_ifname" "Port" (by decide)
  · exact c3_two_phase_resolution.2.2.1 (fun _ _ => true) "x"
      ⟨"p", .Regex, 1, false⟩ rfl
  · exact c3_two_phase_resolution.2.2.2.1 (fun _ _ => true) "xp"
      ⟨"p", .Partial, 1, false⟩ rfl
  · exact c3_two_phase_resolution.2.2.2.2.2 ["Port"]
      (sortMappingsDesc [("Port", "switch_ifname")]) [] "switch_ifname"
      "Port" (by decide)

end CkApstra
